import Mathlib

/-!
# komwolf: segment discovery by recursive bisection, deduplication and ranking

A shallow embedding of `komwolf.go` and `cmd/komwolf/main.go`.

* Go `float64` values (coordinates, distances, sort keys) are values of a type
  parameter `F`; only the operations the source uses are required of it, so the
  structural results hold for any arithmetic.  Results that compare or compute
  with numbers are stated over an ordered field (exact arithmetic).  `Float64`
  instantiates the parameter with rounded arithmetic (53 bits, ties to even), to
  run the same code as Go does.
* Go `int` / `int64` values (segment ids, elapsed times, the bisection depth)
  are `Int`; the source never does arithmetic on them that could overflow.
* A Go slice is a `List`; a Go `map[int64]V` is a `GoMap V`.
* The Strava client (package `go.strava`) is an external collaborator and is a
  parameter of the embedding: a state-passing function, one for the segment
  explorer and one for the leaderboards.
* `log.Fatal` and a run-time panic end the program: `Except.error`.
* `sort.Sort` (package `sort`) is a parameter with its contract, stated for every
  `Interface`; insertion sort is shown to keep it.
-/

namespace Komwolf

/-! ## Data model -/

/-- The fields of `strava.SegmentExplorerSegment` that the program reads. -/
structure Segment (F : Type) where
  Id : Int
  Name : String
  Distance : F
deriving DecidableEq, Repr

/-- The field of `strava.SegmentLeaderboardEntry` that the program reads. -/
structure SegmentLeaderboardEntry where
  ElapsedTime : Int
deriving DecidableEq, Repr

/-- A bounding box as passed to `segmentService.Explore(s, w, n, e)`. -/
structure Box (F : Type) where
  south : F
  west : F
  north : F
  east : F
deriving DecidableEq, Repr

/-! ## Go maps keyed by `int64` -/

/-- A Go `map[int64]V`: the bindings, at most one per key when built with `GoMap.set`. -/
abbrev GoMap (V : Type) := List (Int × V)

/-- The statement `m[k] = v`: overwrite the binding of `k`, or add one. -/
def GoMap.set {V : Type} : GoMap V → Int → V → GoMap V
  | [], k, v => [(k, v)]
  | (k', v') :: rest, k, v =>
    if k' = k then (k, v) :: rest else (k', v') :: GoMap.set rest k v

/-- The expression `val, ok := m[k]`: `some val` when `ok`. -/
def GoMap.get {V : Type} : GoMap V → Int → Option V
  | [], _ => none
  | (k', v') :: rest, k => if k' = k then some v' else GoMap.get rest k

/-- The order in which a `for ... range` loop visits the bindings of a map.  Go leaves
it unspecified, so it is a parameter: any rearrangement of the bindings. -/
structure RangeOrder where
  visit : {V : Type} → GoMap V → GoMap V
  visit_perm : ∀ {V : Type} (m : GoMap V), (visit m).Perm m

/-- Visit the bindings in the order in which their keys were first set. -/
def RangeOrder.insertion : RangeOrder where
  visit := fun m => m
  visit_perm := fun m => List.Perm.refl m

/-- Visit the bindings in the reverse of the order in which their keys were first set. -/
def RangeOrder.reversed : RangeOrder where
  visit := fun m => m.reverse
  visit_perm := fun m => List.reverse_perm m

/-! ## komwolf.go: deduplicate -/

/-- The first loop of `deduplicate`: `for _, val := range s { idSegments[val.Id] = val }`. -/
def idSegments {F : Type} (s : List (Segment F)) : GoMap (Segment F) :=
  s.foldl (fun m val => GoMap.set m val.Id val) []

/-- The function `deduplicate`: collect the segments by id in a map, then append the
values of the map to a fresh slice in the map's iteration order. -/
def deduplicate {F : Type} (ρ : RangeOrder) (s : List (Segment F)) : List (Segment F) :=
  (ρ.visit (idSegments s)).foldl (fun d kv => d ++ [kv.2]) []

/-! ## komwolf.go: ExploreArea -/

/-- The Go pair `exploreSegments, err := explore.Do()`: the returned slice and the error
(`none` for `nil`). -/
abbrev DoResult (F : Type) := List (Segment F) × Option String

/-- The external query `segmentService.Explore(s, w, n, e).ActivityType(t).Do()`, a
parameter of the embedding.  `σ` is whatever the answers may depend on besides the request
(the remote data, the time, the number of calls so far), and every call may change it. -/
abbrev ExploreService (σ F : Type) := σ → Box F → String → DoResult F × σ

/-- What the closure `recur` reads and writes: the captured slice `segments`, the state
behind the client, the lines written by `log.Printf`, and a record of every query issued
so far with the slice it returned. -/
structure ExploreState (σ F : Type) where
  segments : List (Segment F)
  client : σ
  logged : List (Int × String)
  trace : List (Box F × List (Segment F))

/-- The closure `recur` of `ExploreArea`: query the box, append what came back, and while
`i > 0` bisect into nw, ne, se, sw with `i - 1`. -/
def recur {σ F : Type} [Add F] [Sub F] [Div F] [OfNat F 2]
    (svc : ExploreService σ F) (activityType : String)
    (st : ExploreState σ F) (s w n e : F) (i : Int) : ExploreState σ F :=
  let r := svc st.client ⟨s, w, n, e⟩ activityType
  let exploreSegments := r.1.1
  let err := r.1.2
  let st1 : ExploreState σ F :=
    { segments := st.segments ++ exploreSegments
      client := r.2
      logged := match err with
        | some msg => st.logged ++ [(i, msg)]
        | none => st.logged
      trace := st.trace ++ [(⟨s, w, n, e⟩, exploreSegments)] }
  if i > 0 then
    let lonMid := e + (w - e) / 2
    let latMid := s + (n - s) / 2
    let st2 := recur svc activityType st1 latMid w n lonMid (i - 1)
    let st3 := recur svc activityType st2 latMid lonMid n e (i - 1)
    let st4 := recur svc activityType st3 s lonMid latMid e (i - 1)
    recur svc activityType st4 s w latMid lonMid (i - 1)
  else st1
termination_by i.toNat
decreasing_by all_goals omega

/-- The state in which `recur` reaches its test `if i > 0`: one query issued, its slice
appended, its error (if any) logged. -/
def queried {σ F : Type} (svc : ExploreService σ F) (activityType : String)
    (st : ExploreState σ F) (s w n e : F) (i : Int) : ExploreState σ F :=
  { segments := st.segments ++ (svc st.client ⟨s, w, n, e⟩ activityType).1.1
    client := (svc st.client ⟨s, w, n, e⟩ activityType).2
    logged := match (svc st.client ⟨s, w, n, e⟩ activityType).1.2 with
      | some msg => st.logged ++ [(i, msg)]
      | none => st.logged
    trace := st.trace ++ [(⟨s, w, n, e⟩, (svc st.client ⟨s, w, n, e⟩ activityType).1.1)] }

/-- The body of `ExploreArea` up to the call `recur(south, west, north, east, iters)`:
the state in which the recursion ends. -/
def explore {σ F : Type} [Add F] [Sub F] [Div F] [OfNat F 2]
    (svc : ExploreService σ F) (client : σ) (south west north east : F)
    (activityType : String) (iters : Int) : ExploreState σ F :=
  recur svc activityType ⟨[], client, [], []⟩ south west north east iters

/-- The function `ExploreArea`: `deduplicate` of the accumulated slice. -/
def ExploreArea {σ F : Type} [Add F] [Sub F] [Div F] [OfNat F 2]
    (ρ : RangeOrder) (svc : ExploreService σ F) (client : σ) (south west north east : F)
    (activityType : String) (iters : Int) : List (Segment F) :=
  deduplicate ρ (explore svc client south west north east activityType iters).segments

/-- The boxes of the recursion tree of `recur` below a box, for a depth `d`, in the order
of the calls: the box itself, then the trees of nw, ne, se and sw with depth `d - 1`. -/
def treeBoxes {F : Type} [Add F] [Sub F] [Div F] [OfNat F 2] : Nat → Box F → List (Box F)
  | 0, b => [b]
  | d + 1, b =>
    let lonMid := b.east + (b.west - b.east) / 2
    let latMid := b.south + (b.north - b.south) / 2
    b :: (treeBoxes d ⟨latMid, b.west, b.north, lonMid⟩ ++
      treeBoxes d ⟨latMid, lonMid, b.north, b.east⟩ ++
      treeBoxes d ⟨b.south, lonMid, latMid, b.east⟩ ++
      treeBoxes d ⟨b.south, b.west, latMid, lonMid⟩)

/-- A service that answers like `svc` and counts the calls made to it. -/
def counted {σ F : Type} (svc : ExploreService σ F) : ExploreService (σ × Nat) F :=
  fun c b t => ((svc c.1 b t).1, ((svc c.1 b t).2, c.2 + 1))

/-- A service that answers like `svc` except at the calls picked by `sel`, where it
answers `r`; the effect of a call on the state behind the client is that of `svc`. -/
def answerAt {σ F : Type} (svc : ExploreService σ F) (sel : σ → Box F → Bool)
    (r : DoResult F) : ExploreService σ F :=
  fun c b t => if sel c b then (r, (svc c b t).2) else svc c b t

/-! ## komwolf.go: SortByKey and SortByDistance -/

/-- Go's `sort.Interface`, with the receiver's data passed explicitly. -/
structure Interface (σ : Type) where
  Len : σ → Nat
  Less : σ → Nat → Nat → Bool
  Swap : σ → Nat → Nat → σ

/-- The type `KeyFunc`. -/
abbrev KeyFunc (F : Type) := Segment F → F

/-- The type `segmentKeySorter` with its methods `Len`, `Less` and `Swap`; the data is the
slice `segments`.  Go panics on an index outside the slice; `sort.Sort` never passes one,
and here such a call compares as `false` and swaps nothing. -/
def segmentKeySorter {F : Type} [LT F] [DecidableRel (fun a b : F => a < b)]
    (key : KeyFunc F) : Interface (List (Segment F)) where
  Len := fun segments => segments.length
  Less := fun segments i j =>
    match segments[i]?, segments[j]? with
    | some a, some b => decide (key a < key b)
    | _, _ => false
  Swap := fun segments i j =>
    match segments[i]?, segments[j]? with
    | some a, some b => (segments.set i b).set j a
    | _, _ => segments

/-- A sorting routine in the shape of `sort.Sort(data Interface)`. -/
abbrev SortRoutine := {σ : Type} → Interface σ → σ → σ

/-- The function `SortByKey`, for the sorting routine `sortSort`. -/
def SortByKey {F : Type} [LT F] [DecidableRel (fun a b : F => a < b)]
    (sortSort : SortRoutine) (segments : List (Segment F)) (key : KeyFunc F) :
    List (Segment F) :=
  sortSort (segmentKeySorter key) segments

/-- The function `SortByDistance`, for the sorting routine `sortSort`. -/
def SortByDistance {F : Type} [LT F] [DecidableRel (fun a b : F => a < b)]
    (sortSort : SortRoutine) (segments : List (Segment F)) : List (Segment F) :=
  sortSort (segmentKeySorter (fun s => s.Distance)) segments

/-- Run a sequence of `Swap(i, j)` calls. -/
def applySwaps {σ : Type} (I : Interface σ) (data : σ) (swaps : List (Nat × Nat)) : σ :=
  swaps.foldl (fun d p => I.Swap d p.1 p.2) data

/-- The first half of the contract of `sort.Sort`: the data is changed only through calls
of `Swap` on indices below `Len`. -/
def OnlySwaps {σ : Type} (I : Interface σ) (data out : σ) : Prop :=
  ∃ swaps : List (Nat × Nat),
    (∀ p ∈ swaps, p.1 < I.Len data ∧ p.2 < I.Len data) ∧ out = applySwaps I data swaps

/-- The contract of `sort.Sort` for one call: only swaps, and afterwards no element is
`Less` than the one before it. -/
def SortSpec {σ : Type} (I : Interface σ) (data out : σ) : Prop :=
  OnlySwaps I data out ∧ ∀ i, i + 1 < I.Len out → I.Less out (i + 1) i = false

/-- The inner loop of insertion sort in package `sort`:
`for j := i; j > 0 && data.Less(j, j-1); j-- { data.Swap(j, j-1) }`. -/
def insertionInner {σ : Type} (I : Interface σ) : σ → Nat → σ
  | data, 0 => data
  | data, j + 1 =>
    if I.Less data (j + 1) j then insertionInner I (I.Swap data (j + 1) j) j else data

/-- Insertion sort as in package `sort` (the routine `sort.Sort` uses on short slices):
`for i := 1; i < data.Len(); i++ { ... }`. -/
def insertionSort : SortRoutine := fun I data =>
  (List.range' 1 (I.Len data - 1)).foldl (fun d i => insertionInner I d i) data

/-! ## cmd/komwolf/main.go -/

/-- The key function that `main` passes to `SortByKey` when details were collected:
the leader's pace when `details` has the segment, the distance otherwise. -/
def paceKey {F : Type} [Div F] [IntCast F] (details : GoMap SegmentLeaderboardEntry) :
    KeyFunc F :=
  fun segment =>
    match GoMap.get details segment.Id with
    | some val => (val.ElapsedTime : F) / segment.Distance
    | none => segment.Distance

/-- The sanity check of `main` on the parsed bounds, `true` when it calls `log.Fatal`. -/
def boundsRejected {F : Type} [LT F] [DecidableRel (fun a b : F => a < b)]
    (s w n e : F) : Bool :=
  decide (s > n) || decide (w > e)

/-- The part of `main` from the sanity check to the call of `ExploreArea`: `log.Fatal`
ends the program with the message, otherwise the exploration runs. -/
def mainExplore {σ F : Type} [Add F] [Sub F] [Div F] [OfNat F 2] [LT F]
    [DecidableRel (fun a b : F => a < b)]
    (ρ : RangeOrder) (svc : ExploreService σ F) (client : σ) (s w n e : F)
    (activityType : String) (iters : Int) : Except String (List (Segment F)) :=
  if boundsRejected s w n e then
    Except.error "Provided bounds do not make sense. Please check."
  else
    Except.ok (ExploreArea ρ svc client s w n e activityType iters)

/-- Two states of the exploration that differ at most in what was logged. -/
def SameButLog {σ F : Type} (a b : ExploreState σ F) : Prop :=
  a.segments = b.segments ∧ a.client = b.client ∧ a.trace = b.trace

/-- The boxes of the four recursive calls made for a box explored at depth 1. -/
def childBoxes {σ F : Type} [Add F] [Sub F] [Div F] [OfNat F 2]
    (svc : ExploreService σ F) (client : σ) (s w n e : F) (activityType : String) :
    List (Box F) :=
  ((explore svc client s w n e activityType 1).trace.map Prod.fst).tail

/-- Four boxes nw, ne, se, sw reassemble the box `b`: their least south, greatest north,
least west and greatest east are those of `b`, and neighbours share their common edge. -/
def Reassembles {F : Type} [LinearOrder F] (b : Box F) : List (Box F) → Prop
  | [nw, ne, se, sw] =>
    min (min nw.south ne.south) (min se.south sw.south) = b.south ∧
    max (max nw.north ne.north) (max se.north sw.north) = b.north ∧
    min (min nw.west ne.west) (min se.west sw.west) = b.west ∧
    max (max nw.east ne.east) (max se.east sw.east) = b.east ∧
    nw.east = ne.west ∧ sw.east = se.west ∧ sw.north = nw.south ∧ se.north = ne.south
  | _ => False

/-- A service without state that finds nothing anywhere. -/
def emptyService (F : Type) : ExploreService Unit F := fun c _ _ => (([], none), c)

/-- A service that counts its calls, fails at its third call, and answers every other
call with one segment named after the call and one segment that it always returns. -/
def sampleService : ExploreService Nat ℚ := fun c b _ =>
  if c = 2 then (([], some "timeout"), c + 1)
  else (([⟨c, "s", b.north - b.south⟩, ⟨100, "everywhere", 7⟩], none), c + 1)

/-- Three segments, out of order by distance. -/
def sampleSegments : List (Segment ℚ) :=
  [⟨1, "A", 10⟩, ⟨2, "B", 5⟩, ⟨3, "C", 7⟩]

/-- The details that `main` has after finding a leader (50 s) for segment 1 only. -/
def sampleDetails : GoMap SegmentLeaderboardEntry :=
  GoMap.set [] 1 ⟨50⟩

/-- The box invariant of the explorer: south below north and west below east. -/
def Box.valid {F : Type} [LT F] (b : Box F) : Prop :=
  b.south < b.north ∧ b.west < b.east

/-- The box `c` lies inside the box `p`. -/
def Box.inside {F : Type} [LE F] (c p : Box F) : Prop :=
  p.south ≤ c.south ∧ c.north ≤ p.north ∧ p.west ≤ c.west ∧ c.east ≤ p.east

/-- A service whose slice depends only on the box and the activity type, not on the
state behind the client. -/
def Deterministic {σ F : Type} (svc : ExploreService σ F) : Prop :=
  ∀ (c c' : σ) (b : Box F) (t : String), (svc c b t).1.1 = (svc c' b t).1.1

/-- A service without state that returns one segment per box, named after its corner. -/
def cornerService : ExploreService Unit ℚ := fun c b _ =>
  (([⟨⌊b.south⌋ * 10 + ⌊b.west⌋, "corner", b.north - b.south⟩], none), c)

/-! ## komwolf.go: SegmentLeader, and the enrichment loop of main -/

/-- The fields of `strava.SegmentLeaderboard` that `SegmentLeader` reads. -/
structure SegmentLeaderboard where
  EntryCount : Int
  Entries : List SegmentLeaderboardEntry
deriving DecidableEq, Repr

/-- The external query `GetLeaderboard(id).PerPage(1).Page(1).Do()`, a parameter of the
embedding: the Go pair `(result, err)` and the new state behind the client.  With an
error the result is not looked at. -/
abbrev LeaderboardService (τ : Type) := τ → Int → (SegmentLeaderboard × Option String) × τ

/-- The function `SegmentLeader`: the first entry when the query succeeded with a positive
entry count, `none` (Go's `nil`) otherwise.  `result.Entries[0]` on an empty slice is a
run-time panic, here an error. -/
def SegmentLeader {τ : Type} (lb : LeaderboardService τ) (client : τ) (id : Int) :
    Except String (Option SegmentLeaderboardEntry × τ) :=
  let r := lb client id
  let result := r.1.1
  let err := r.1.2
  if err = none ∧ result.EntryCount > 0 then
    match result.Entries with
    | entry :: _ => Except.ok (some entry, r.2)
    | [] => Except.error "index out of range [0] with length 0"
  else
    Except.ok (none, r.2)

/-- What the enrichment loop of `main` reads and writes: the map `details`, the state
behind the client, the count of the progress bar, and a record of every call of
`SegmentLeader` made so far with what it returned. -/
structure EnrichState (τ : Type) where
  details : GoMap SegmentLeaderboardEntry
  client : τ
  bar : Nat
  lookups : List (Int × Option SegmentLeaderboardEntry)

/-- One pass of the loop body:
`if leader := komwolf.SegmentLeader(client, sm.Id); leader != nil { details[sm.Id] = leader }`
and `bar.Increment()`. -/
def enrichStep {τ F : Type} (lb : LeaderboardService τ) (st : EnrichState τ)
    (sm : Segment F) : Except String (EnrichState τ) :=
  match SegmentLeader lb st.client sm.Id with
  | Except.error msg => Except.error msg
  | Except.ok (leader, client) =>
    Except.ok
      { details := match leader with
          | some entry => GoMap.set st.details sm.Id entry
          | none => st.details
        client := client
        bar := st.bar + 1
        lookups := st.lookups ++ [(sm.Id, leader)] }

/-- The loop `for _, sm := range segments { ... }` of `main`. -/
def enrichLoop {τ F : Type} (lb : LeaderboardService τ) :
    List (Segment F) → EnrichState τ → Except String (EnrichState τ)
  | [], st => Except.ok st
  | sm :: rest, st =>
    match enrichStep lb st sm with
    | Except.error msg => Except.error msg
    | Except.ok st' => enrichLoop lb rest st'

/-- The enrichment of `main`: `details := make(map...)`, then the loop. -/
def enrich {τ F : Type} (lb : LeaderboardService τ) (client : τ)
    (segments : List (Segment F)) : Except String (EnrichState τ) :=
  enrichLoop lb segments ⟨[], client, 0, []⟩

/-- The map `details` and the record of lookups agree: every lookup that returned an
entry left a binding for its id, and every binding holds an entry that a lookup for its
key returned. -/
def EnrichState.consistent {τ : Type} (st : EnrichState τ) : Prop :=
  (∀ r ∈ st.lookups, r.2.isSome = true → (GoMap.get st.details r.1).isSome = true) ∧
    ∀ k v, GoMap.get st.details k = some v → (k, some v) ∈ st.lookups

/-- What a leaderboard query yields for the enrichment, read off the responses of the
service alone: the first entry when the query succeeded with at least one entry, nothing
when it failed or came back empty. -/
def leaderOf {τ : Type} (lb : LeaderboardService τ) (c : τ) (id : Int) :
    Option SegmentLeaderboardEntry :=
  if (lb c id).1.2 = none ∧ (lb c id).1.1.EntryCount > 0 then (lb c id).1.1.Entries.head?
  else none

/-- The queries for a sequence of ids made one after the other from the client state `c`,
each with what it yields, read off the responses of the service alone. -/
def lookupsFrom {τ : Type} (lb : LeaderboardService τ) :
    τ → List Int → List (Int × Option SegmentLeaderboardEntry)
  | _, [] => []
  | c, id :: ids => (id, leaderOf lb c id) :: lookupsFrom lb (lb c id).2 ids

/-- The state behind the client after the queries for a sequence of ids. -/
def clientAfter {τ : Type} (lb : LeaderboardService τ) : τ → List Int → τ
  | c, [] => c
  | c, id :: ids => clientAfter lb (lb c id).2 ids

/-- A service whose response does not depend on the state behind the client. -/
def LeaderboardService.stateless {τ : Type} (lb : LeaderboardService τ) : Prop :=
  ∀ (c c' : τ) (id : Int), (lb c id).1 = (lb c' id).1

/-- A response is well formed when a positive entry count comes with an entry. -/
def LeaderboardService.wellFormed {τ : Type} (lb : LeaderboardService τ) : Prop :=
  ∀ (c : τ) (id : Int), (lb c id).1.2 = none → (lb c id).1.1.EntryCount > 0 →
    (lb c id).1.1.Entries ≠ []

/-- A leaderboard service that counts its calls: the query fails for id 2, the leaderboard
of id 3 is empty, and every other segment has a leader whose time tells id and call. -/
def sampleLeaderboard : LeaderboardService Nat := fun c id =>
  if id = 2 then ((⟨0, []⟩, some "rate limit"), c + 1)
  else if id = 3 then ((⟨0, []⟩, none), c + 1)
  else ((⟨12, [⟨id * 100 + c⟩]⟩, none), c + 1)

/-! ## cmd/komwolf/main.go: printLeader -/

/-- Go's conversion `int64(x)` of a `float64`: the fraction is discarded (truncation
towards zero).  The range of `int64` is not modelled. -/
def int64OfFloat {F : Type} [LinearOrderedField F] [FloorRing F] (x : F) : Int :=
  if 0 ≤ x then ⌊x⌋ else ⌈x⌉

/-- The global `convertMeters` as `main` sets it: kilometres with the flag `-m`, miles
without. -/
def convertMeters {F : Type} [LinearOrderedField F] (metric : Bool) (m : F) : F :=
  if metric then m * 0.001 else m * 0.000621371

/-- The global `distanceAbbrev` as `main` sets it. -/
def distanceAbbrev (metric : Bool) : String :=
  if metric then "km" else "mi"

/-- The arguments that `printLeader` passes to `fmt.Printf("CR %d:%02d %s/min (%d s)\n", ...)`. -/
structure LeaderLine where
  paceMinutes : Int
  paceSeconds : Int
  unit : String
  elapsed : Int
deriving DecidableEq, Repr

/-- The function `printLeader`. -/
def printLeader {F : Type} [LinearOrderedField F] [FloorRing F] (metric : Bool)
    (ld : SegmentLeaderboardEntry) (distance : F) : LeaderLine :=
  let minutes := (ld.ElapsedTime : F) / 60.0
  let pace := minutes / convertMeters metric distance
  let paceMinutes := int64OfFloat pace
  let paceSeconds := int64OfFloat ((pace - (paceMinutes : F)) * 60.0 + 0.5)
  ⟨paceMinutes, paceSeconds, distanceAbbrev metric, ld.ElapsedTime⟩

/-- The value of the local `pace` of `printLeader`: minutes per converted distance. -/
def leaderPace {F : Type} [LinearOrderedField F] (metric : Bool)
    (ld : SegmentLeaderboardEntry) (distance : F) : F :=
  ((ld.ElapsedTime : F) / 60.0) / convertMeters metric distance

/-! ## The contract of sort.Sort -/

/-- What a sorting routine is told about the data behind an `Interface`: the data holds
a slice of elements, `Len` is its length, `Less` compares the elements at two indices
with one fixed comparison, and `Swap` exchanges the elements at two indices. -/
structure SliceView {σ : Type} (I : Interface σ) (α : Type) where
  elems : σ → List α
  less : α → α → Bool
  Len_eq : ∀ d, I.Len d = (elems d).length
  Less_eq : ∀ d i j a b, (elems d)[i]? = some a → (elems d)[j]? = some b →
    I.Less d i j = less a b
  Swap_eq : ∀ d i j a b, (elems d)[i]? = some a → (elems d)[j]? = some b →
    elems (I.Swap d i j) = ((elems d).set i b).set j a

/-- The requirement of package `sort` on `Less`: it describes a transitive ordering (no
element sorts before itself; `Less` is transitive; so is its negation). -/
def TransitiveOrdering {α : Type} (less : α → α → Bool) : Prop :=
  (∀ a, less a a = false) ∧
    (∀ a b c, less a b = true → less b c = true → less a c = true) ∧
    (∀ a b c, less a b = false → less b c = false → less a c = false)

/-- The contract of `sort.Sort`, for every `Interface` over every kind of data: when
`Less` describes a transitive ordering, `Sort` rearranges the elements into ascending
order as determined by `Less`, that is, no element is `Less` than one placed before it.
Nothing here mentions segments or keys. -/
def SortContract (sortSort : SortRoutine) : Prop :=
  ∀ (σ α : Type) (I : Interface σ) (v : SliceView I α), TransitiveOrdering v.less →
    ∀ d : σ, (v.elems (sortSort I d)).Perm (v.elems d) ∧
      (v.elems (sortSort I d)).Pairwise (fun a b => v.less b a = false)

/-- The type `segmentKeySorter` is such an interface: its data is the slice itself and
`Less` compares keys with `<`. -/
def keySorterView {F : Type} [LT F] [DecidableRel (fun a b : F => a < b)]
    (key : KeyFunc F) : SliceView (segmentKeySorter key) (Segment F) where
  elems := fun segments => segments
  less := fun a b => decide (key a < key b)
  Len_eq := fun _ => rfl
  Less_eq := fun d i j a b hi hj => by simp only [segmentKeySorter, hi, hj]
  Swap_eq := fun d i j a b hi hj => by simp only [segmentKeySorter, hi, hj]

/-- Three segments, out of order by distance and by pace key. -/
def shuffledSegments : List (Segment ℚ) :=
  [⟨3, "C", 7⟩, ⟨1, "A", 10⟩, ⟨2, "B", 5⟩]

/-! ## Go's float64 arithmetic -/

/-- Rounding to the nearest integer, a tie going to the even neighbour. -/
def roundHalfEven (x : ℚ) : Int :=
  if x - ⌊x⌋ < 1 / 2 then ⌊x⌋
  else if 1 / 2 < x - ⌊x⌋ then ⌊x⌋ + 1
  else if ⌊x⌋ % 2 = 0 then ⌊x⌋
  else ⌊x⌋ + 1

/-- The float64 nearest to a real result (IEEE 754 binary64, round to nearest, ties to
even): the value is scaled so that its integer part has 53 bits and then rounded.  The
exponent range is not modelled, so there is neither overflow nor underflow. -/
def round64 (x : ℚ) : ℚ :=
  if x = 0 then 0
  else (roundHalfEven (x / 2 ^ (Int.log 2 |x| - 52)) : ℚ) * 2 ^ (Int.log 2 |x| - 52)

/-- A finite `float64`, given by its value. -/
structure Float64 where
  val : ℚ
deriving DecidableEq, Repr

/-- Go's `x + y` on `float64`: the exact sum, rounded. -/
instance Float64.instAdd : Add Float64 := ⟨fun a b => ⟨round64 (a.val + b.val)⟩⟩

/-- Go's `x - y` on `float64`: the exact difference, rounded. -/
instance Float64.instSub : Sub Float64 := ⟨fun a b => ⟨round64 (a.val - b.val)⟩⟩

/-- Go's `x / y` on `float64` for `y ≠ 0`: the exact quotient, rounded. -/
instance Float64.instDiv : Div Float64 := ⟨fun a b => ⟨round64 (a.val / b.val)⟩⟩

/-- The constant `2.0`. -/
instance Float64.instOfNatTwo : OfNat Float64 2 := ⟨⟨2⟩⟩

/-- Go's `x < y` on finite `float64` values. -/
instance Float64.instLT : LT Float64 := ⟨fun a b => a.val < b.val⟩

/-- The comparison is decidable. -/
instance Float64.instDecidableLT : DecidableRel (fun a b : Float64 => a < b) :=
  fun a b => inferInstanceAs (Decidable (a.val < b.val))

/-! ## Lemmas -/

section ExploreLemmas

variable {σ F : Type} [Add F] [Sub F] [Div F] [OfNat F 2]

theorem recur_of_nonpos (svc : ExploreService σ F) (t : String) (st : ExploreState σ F)
    (s w n e : F) (i : Int) (hi : i ≤ 0) :
    recur svc t st s w n e i = queried svc t st s w n e i := by
  rw [recur]
  simp only [gt_iff_lt, not_lt.mpr hi, if_false, queried]

theorem recur_of_pos (svc : ExploreService σ F) (t : String) (st : ExploreState σ F)
    (s w n e : F) (i : Int) (hi : 0 < i) :
    recur svc t st s w n e i =
      recur svc t
        (recur svc t
          (recur svc t
            (recur svc t (queried svc t st s w n e i)
              (s + (n - s) / 2) w n (e + (w - e) / 2) (i - 1))
            (s + (n - s) / 2) (e + (w - e) / 2) n e (i - 1))
          s (e + (w - e) / 2) (s + (n - s) / 2) e (i - 1))
        s w (s + (n - s) / 2) (e + (w - e) / 2) (i - 1) := by
  conv_lhs => rw [recur]
  simp only [gt_iff_lt, hi, if_true, queried]

theorem recur_zero (svc : ExploreService σ F) (t : String) (st : ExploreState σ F)
    (s w n e : F) : recur svc t st s w n e 0 = queried svc t st s w n e 0 :=
  recur_of_nonpos svc t st s w n e 0 le_rfl

theorem recur_succ (svc : ExploreService σ F) (t : String) (st : ExploreState σ F)
    (s w n e : F) (d : Nat) :
    recur svc t st s w n e ((d + 1 : Nat) : Int) =
      recur svc t
        (recur svc t
          (recur svc t
            (recur svc t (queried svc t st s w n e ((d + 1 : Nat) : Int))
              (s + (n - s) / 2) w n (e + (w - e) / 2) (d : Int))
            (s + (n - s) / 2) (e + (w - e) / 2) n e (d : Int))
          s (e + (w - e) / 2) (s + (n - s) / 2) e (d : Int))
        s w (s + (n - s) / 2) (e + (w - e) / 2) (d : Int) := by
  rw [recur_of_pos svc t st s w n e _ (by omega)]
  have h : (((d + 1 : Nat) : Int) - 1) = (d : Int) := by omega
  rw [h]

/-- The number of nodes of the full quadtree of depth `d`. -/
theorem quadCount_succ (d : Nat) : (4 ^ (d + 2) - 1) / 3 = 1 + 4 * ((4 ^ (d + 1) - 1) / 3) := by
  have h : ∀ k : Nat, ∃ m, 4 ^ k = 3 * m + 1 := by
    intro k
    induction k with
    | zero => exact ⟨0, rfl⟩
    | succ k ih =>
      obtain ⟨m, hm⟩ := ih
      exact ⟨4 * m + 1, by rw [pow_succ, hm]; ring⟩
  obtain ⟨m, hm⟩ := h (d + 1)
  have h2 : 4 ^ (d + 2) = 3 * (4 * m + 1) + 1 := by rw [pow_succ, hm]; ring
  rw [h2, hm]
  omega

theorem recur_trace_length (svc : ExploreService σ F) (t : String) (d : Nat) :
    ∀ (st : ExploreState σ F) (s w n e : F),
      (recur svc t st s w n e (d : Int)).trace.length =
        st.trace.length + (4 ^ (d + 1) - 1) / 3 := by
  induction d with
  | zero =>
    intro st s w n e
    simp [recur_zero, queried]
  | succ d ih =>
    intro st s w n e
    rw [recur_succ, ih, ih, ih, ih, quadCount_succ]
    simp only [queried, List.length_append, List.length_singleton]
    omega

end ExploreLemmas

section MapLemmas

variable {V : Type}

theorem GoMap.keys_set (m : GoMap V) (k : Int) (v : V) :
    (GoMap.set m k v).map Prod.fst =
      if k ∈ m.map Prod.fst then m.map Prod.fst else m.map Prod.fst ++ [k] := by
  induction m with
  | nil => simp [GoMap.set]
  | cons p rest ih =>
    obtain ⟨k', v'⟩ := p
    by_cases h : k' = k
    · subst h
      simp [GoMap.set]
    · have h' : ¬ k = k' := fun e => h e.symm
      simp only [GoMap.set, h, if_false, List.map_cons, ih, List.mem_cons, h', false_or]
      split <;> simp

theorem GoMap.mem_keys_set (m : GoMap V) (k : Int) (v : V) (k' : Int) :
    k' ∈ (GoMap.set m k v).map Prod.fst ↔ k' = k ∨ k' ∈ m.map Prod.fst := by
  rw [GoMap.keys_set]
  split
  · constructor
    · exact Or.inr
    · rintro (h | h)
      · subst h; assumption
      · exact h
  · rw [List.mem_append, List.mem_singleton]
    exact or_comm

theorem GoMap.nodup_keys_set (m : GoMap V) (k : Int) (v : V)
    (h : (m.map Prod.fst).Nodup) : ((GoMap.set m k v).map Prod.fst).Nodup := by
  rw [GoMap.keys_set]
  split
  · exact h
  · rename_i hk
    exact List.Nodup.append h (List.nodup_singleton k) (by
      intro a ha hb
      rw [List.mem_singleton] at hb
      subst hb
      exact hk ha)

theorem GoMap.mem_set (m : GoMap V) (k : Int) (v : V) (p : Int × V)
    (hp : p ∈ GoMap.set m k v) : p = (k, v) ∨ p ∈ m := by
  induction m with
  | nil =>
    simp only [GoMap.set, List.mem_singleton] at hp
    exact Or.inl hp
  | cons q rest ih =>
    obtain ⟨k', v'⟩ := q
    by_cases h : k' = k
    · simp only [GoMap.set, h, if_true, List.mem_cons] at hp
      rcases hp with hp | hp
      · exact Or.inl hp
      · exact Or.inr (List.mem_cons_of_mem _ hp)
    · simp only [GoMap.set, h, if_false, List.mem_cons] at hp
      rcases hp with hp | hp
      · exact Or.inr (hp ▸ List.mem_cons_self _ _)
      · rcases ih hp with h1 | h1
        · exact Or.inl h1
        · exact Or.inr (List.mem_cons_of_mem _ h1)

end MapLemmas

section DedupLemmas

variable {F : Type}

theorem collect_nodup (s : List (Segment F)) :
    ∀ m : GoMap (Segment F), (m.map Prod.fst).Nodup →
      ((s.foldl (fun m val => GoMap.set m val.Id val) m).map Prod.fst).Nodup := by
  induction s with
  | nil => intro m h; exact h
  | cons a s ih =>
    intro m h
    exact ih _ (GoMap.nodup_keys_set m a.Id a h)

theorem collect_mem_keys (s : List (Segment F)) :
    ∀ (m : GoMap (Segment F)) (k : Int),
      k ∈ (s.foldl (fun m val => GoMap.set m val.Id val) m).map Prod.fst ↔
        k ∈ m.map Prod.fst ∨ k ∈ s.map (fun x => x.Id) := by
  induction s with
  | nil => intro m k; simp
  | cons a s ih =>
    intro m k
    rw [List.foldl_cons, ih, GoMap.mem_keys_set, List.map_cons, List.mem_cons]
    tauto

theorem collect_mem (s : List (Segment F)) :
    ∀ (m : GoMap (Segment F)) (p : Int × Segment F),
      p ∈ s.foldl (fun m val => GoMap.set m val.Id val) m →
        p ∈ m ∨ (p.2 ∈ s ∧ p.2.Id = p.1) := by
  induction s with
  | nil => intro m p h; exact Or.inl h
  | cons a s ih =>
    intro m p h
    rcases ih _ p h with h1 | ⟨h1, h2⟩
    · rcases GoMap.mem_set m a.Id a p h1 with h3 | h3
      · subst h3
        exact Or.inr ⟨List.mem_cons_self _ _, rfl⟩
      · exact Or.inl h3
    · exact Or.inr ⟨List.mem_cons_of_mem _ h1, h2⟩

theorem idSegments_nodup (s : List (Segment F)) : ((idSegments s).map Prod.fst).Nodup :=
  collect_nodup s [] List.nodup_nil

theorem idSegments_mem_keys (s : List (Segment F)) (k : Int) :
    k ∈ (idSegments s).map Prod.fst ↔ k ∈ s.map (fun x => x.Id) := by
  unfold idSegments
  rw [collect_mem_keys]
  simp

theorem idSegments_mem (s : List (Segment F)) (p : Int × Segment F)
    (h : p ∈ idSegments s) : p.2 ∈ s ∧ p.2.Id = p.1 := by
  rcases collect_mem s [] p h with h1 | h1
  · cases h1
  · exact h1

theorem appendValues_eq (l : List (Int × Segment F)) :
    ∀ d : List (Segment F), l.foldl (fun d kv => d ++ [kv.2]) d = d ++ l.map Prod.snd := by
  induction l with
  | nil => intro d; simp
  | cons a l ih => intro d; rw [List.foldl_cons, ih]; simp

theorem deduplicate_eq (ρ : RangeOrder) (s : List (Segment F)) :
    deduplicate ρ s = (ρ.visit (idSegments s)).map Prod.snd := by
  unfold deduplicate
  rw [appendValues_eq]
  simp

theorem deduplicate_ids (ρ : RangeOrder) (s : List (Segment F)) :
    (deduplicate ρ s).map (fun x => x.Id) = (ρ.visit (idSegments s)).map Prod.fst := by
  rw [deduplicate_eq, List.map_map]
  apply List.map_congr_left
  intro p hp
  exact (idSegments_mem s p ((ρ.visit_perm _).mem_iff.mp hp)).2

theorem deduplicate_ids_nodup (ρ : RangeOrder) (s : List (Segment F)) :
    ((deduplicate ρ s).map (fun x => x.Id)).Nodup := by
  rw [deduplicate_ids]
  exact ((ρ.visit_perm _).map Prod.fst).nodup_iff.mpr (idSegments_nodup s)

theorem deduplicate_mem_ids (ρ : RangeOrder) (s : List (Segment F)) (k : Int) :
    k ∈ (deduplicate ρ s).map (fun x => x.Id) ↔ k ∈ s.map (fun x => x.Id) := by
  rw [deduplicate_ids, ((ρ.visit_perm _).map Prod.fst).mem_iff, idSegments_mem_keys]

theorem deduplicate_subset (ρ : RangeOrder) (s : List (Segment F)) (x : Segment F)
    (h : x ∈ deduplicate ρ s) : x ∈ s := by
  rw [deduplicate_eq, List.mem_map] at h
  obtain ⟨p, hp, rfl⟩ := h
  exact (idSegments_mem s p ((ρ.visit_perm _).mem_iff.mp hp)).1

end DedupLemmas

section ExploreInvariants

variable {σ F : Type} [Add F] [Sub F] [Div F] [OfNat F 2]

/-- A property of the state that every query preserves is preserved by `recur`, for every
depth (negative depths included). -/
theorem recur_preserves (svc : ExploreService σ F) (t : String)
    (P : ExploreState σ F → Prop)
    (hq : ∀ st s w n e i, P st → P (queried svc t st s w n e i)) :
    ∀ (k : Nat) (i : Int), i.toNat = k → ∀ (st : ExploreState σ F) (s w n e : F),
      P st → P (recur svc t st s w n e i) := by
  intro k
  induction k with
  | zero =>
    intro i hi st s w n e h
    rw [recur_of_nonpos svc t st s w n e i (by omega)]
    exact hq _ _ _ _ _ _ h
  | succ k ih =>
    intro i hi st s w n e h
    rw [recur_of_pos svc t st s w n e i (by omega)]
    have hk : (i - 1).toNat = k := by omega
    exact ih _ hk _ _ _ _ _ (ih _ hk _ _ _ _ _ (ih _ hk _ _ _ _ _
      (ih _ hk _ _ _ _ _ (hq _ _ _ _ _ _ h))))

/-- The accumulated slice is the concatenation of the slices returned so far. -/
theorem recur_segments_eq (svc : ExploreService σ F) (t : String) (st : ExploreState σ F)
    (s w n e : F) (i : Int) (h : st.segments = (st.trace.map Prod.snd).flatten) :
    (recur svc t st s w n e i).segments =
      ((recur svc t st s w n e i).trace.map Prod.snd).flatten := by
  refine recur_preserves svc t (fun st => st.segments = (st.trace.map Prod.snd).flatten)
    ?_ _ i rfl st s w n e h
  intro st s w n e i h
  simp only [queried, List.map_append, List.flatten_append, h]
  simp

theorem explore_segments_eq (svc : ExploreService σ F) (client : σ) (s w n e : F)
    (t : String) (i : Int) :
    (explore svc client s w n e t i).segments =
      ((explore svc client s w n e t i).trace.map Prod.snd).flatten :=
  recur_segments_eq svc t _ s w n e i rfl

/-- The boxes queried by one call of `recur` are those of its recursion tree, in call order. -/
theorem recur_trace_boxes (svc : ExploreService σ F) (t : String) (d : Nat) :
    ∀ (st : ExploreState σ F) (s w n e : F),
      (recur svc t st s w n e (d : Int)).trace.map Prod.fst =
        st.trace.map Prod.fst ++ treeBoxes d ⟨s, w, n, e⟩ := by
  induction d with
  | zero =>
    intro st s w n e
    simp [recur_zero, queried, treeBoxes]
  | succ d ih =>
    intro st s w n e
    rw [recur_succ, ih, ih, ih, ih]
    simp [queried, treeBoxes]

/-- The counter of a counted service after `recur`. -/
theorem recur_counted (svc : ExploreService σ F) (t : String) (d : Nat) :
    ∀ (st : ExploreState (σ × Nat) F) (s w n e : F),
      (recur (counted svc) t st s w n e (d : Int)).client.2 =
        st.client.2 + (4 ^ (d + 1) - 1) / 3 := by
  induction d with
  | zero =>
    intro st s w n e
    simp [recur_zero, queried, counted]
  | succ d ih =>
    intro st s w n e
    rw [recur_succ, ih, ih, ih, ih, quadCount_succ]
    simp only [queried, counted]
    omega

end ExploreInvariants


section SwapLemmas

variable {α : Type}

theorem head_exchange_perm (x b : α) :
    ∀ (xs : List α) (j : Nat), xs[j]? = some b →
      (b :: xs.set j x).Perm (x :: xs) := by
  intro xs
  induction xs with
  | nil => intro j h; simp at h
  | cons y ys ih =>
    intro j h
    cases j with
    | zero =>
      simp only [List.getElem?_cons_zero, Option.some.injEq] at h
      subst h
      exact List.Perm.swap _ _ _
    | succ j =>
      simp only [List.getElem?_cons_succ] at h
      simp only [List.set_cons_succ]
      exact (List.Perm.swap _ _ _).trans
        (((ih j h).cons y).trans (List.Perm.swap _ _ _))

theorem exchange_perm :
    ∀ (l : List α) (i j : Nat) (a b : α), l[i]? = some a → l[j]? = some b →
      ((l.set i b).set j a).Perm l := by
  intro l
  induction l with
  | nil => intro i j a b h; simp at h
  | cons x xs ih =>
    intro i j a b hi hj
    cases i with
    | zero =>
      simp only [List.getElem?_cons_zero, Option.some.injEq] at hi
      subst hi
      cases j with
      | zero =>
        simp only [List.getElem?_cons_zero, Option.some.injEq] at hj
        subst hj
        simp
      | succ j =>
        simp only [List.getElem?_cons_succ] at hj
        simp only [List.set_cons_zero, List.set_cons_succ]
        exact head_exchange_perm x b xs j hj
    | succ i =>
      simp only [List.getElem?_cons_succ] at hi
      cases j with
      | zero =>
        simp only [List.getElem?_cons_zero, Option.some.injEq] at hj
        subst hj
        simp only [List.set_cons_zero, List.set_cons_succ]
        exact head_exchange_perm x a xs i hi
      | succ j =>
        simp only [List.getElem?_cons_succ] at hj
        simp only [List.set_cons_succ]
        exact (ih i j a b hi hj).cons x

theorem getElem_adjacent_right (pre post : List α) (y x : α) :
    (pre ++ y :: x :: post)[pre.length + 1]? = some x := by
  rw [List.getElem?_append_right (by omega)]
  simp

theorem getElem_adjacent_left (pre post : List α) (y x : α) :
    (pre ++ y :: x :: post)[pre.length]? = some y := by
  rw [List.getElem?_append_right (by omega)]
  simp

end SwapLemmas

section SwapOnly

variable {F : Type} [LT F] [DecidableRel (fun a b : F => a < b)]

/-- The method `Swap` only reorders the slice. -/
theorem Swap_perm (key : KeyFunc F) (l : List (Segment F)) (i j : Nat) :
    ((segmentKeySorter key).Swap l i j).Perm l := by
  simp only [segmentKeySorter]
  split
  · rename_i a b hi hj
    exact exchange_perm l i j a b hi hj
  · exact List.Perm.refl l

theorem applySwaps_perm (key : KeyFunc F) (swaps : List (Nat × Nat)) :
    ∀ l : List (Segment F), (applySwaps (segmentKeySorter key) l swaps).Perm l := by
  induction swaps with
  | nil => intro l; exact List.Perm.refl l
  | cons p ps ih =>
    intro l
    exact (ih _).trans (Swap_perm key l p.1 p.2)

theorem OnlySwaps.perm {key : KeyFunc F} {data out : List (Segment F)}
    (h : OnlySwaps (segmentKeySorter key) data out) : out.Perm data := by
  obtain ⟨swaps, -, rfl⟩ := h
  exact applySwaps_perm key swaps data

end SwapOnly

section SortLemmas

variable {F : Type} [LinearOrder F]

/-- The method `Less` on two indices of the slice compares the keys. -/
theorem Less_eq (key : KeyFunc F) (l : List (Segment F)) (i j : Nat)
    (hi : i < l.length) (hj : j < l.length) :
    (segmentKeySorter key).Less l i j = decide (key l[i] < key l[j]) := by
  simp only [segmentKeySorter, List.getElem?_eq_getElem hi, List.getElem?_eq_getElem hj]

theorem chain_of_adjacent (key : KeyFunc F) (out : List (Segment F))
    (h : ∀ i, i + 1 < (segmentKeySorter key).Len out →
      (segmentKeySorter key).Less out (i + 1) i = false) :
    List.Chain' (fun a b => key a ≤ key b) out := by
  rw [List.chain'_iff_get]
  intro i hi
  have h1 : i + 1 < out.length := by omega
  have h2 := h i h1
  rw [Less_eq key out (i + 1) i h1 (by omega)] at h2
  simpa using h2

end SortLemmas

section InsertionSort

variable {F : Type} [LinearOrder F]

theorem Swap_length (key : KeyFunc F) (l : List (Segment F)) (i j : Nat) :
    ((segmentKeySorter key).Swap l i j).length = l.length :=
  (Swap_perm key l i j).length_eq

theorem applySwaps_append {σ : Type} (I : Interface σ) (data : σ) (a b : List (Nat × Nat)) :
    applySwaps I data (a ++ b) = applySwaps I (applySwaps I data a) b := by
  simp [applySwaps, List.foldl_append]

theorem OnlySwaps.refl {σ : Type} (I : Interface σ) (data : σ) : OnlySwaps I data data :=
  ⟨[], by simp, rfl⟩

theorem OnlySwaps.trans {key : KeyFunc F} {a b c : List (Segment F)}
    (h1 : OnlySwaps (segmentKeySorter key) a b) (h2 : OnlySwaps (segmentKeySorter key) b c) :
    OnlySwaps (segmentKeySorter key) a c := by
  have hlen : b.length = a.length := h1.perm.length_eq
  obtain ⟨s1, hs1, rfl⟩ := h1
  obtain ⟨s2, hs2, rfl⟩ := h2
  refine ⟨s1 ++ s2, ?_, (applySwaps_append _ _ _ _).symm ▸ rfl⟩
  intro p hp
  rcases List.mem_append.mp hp with hp | hp
  · exact hs1 p hp
  · have := hs2 p hp
    simp only [segmentKeySorter] at this hlen ⊢
    omega

theorem OnlySwaps.single (key : KeyFunc F) (l : List (Segment F)) (i j : Nat)
    (hi : i < l.length) (hj : j < l.length) :
    OnlySwaps (segmentKeySorter key) l ((segmentKeySorter key).Swap l i j) :=
  ⟨[(i, j)], by simpa [segmentKeySorter] using ⟨hi, hj⟩, rfl⟩

/-- The inner loop of insertion sort changes the slice only by swaps within it. -/
theorem insertionInner_onlySwaps (key : KeyFunc F) :
    ∀ (j : Nat) (l : List (Segment F)), j < l.length →
      OnlySwaps (segmentKeySorter key) l (insertionInner (segmentKeySorter key) l j) := by
  intro j
  induction j with
  | zero => intro l _; exact OnlySwaps.refl _ l
  | succ j ih =>
    intro l hj
    rw [insertionInner]
    split
    · refine (OnlySwaps.single key l (j + 1) j hj (by omega)).trans (ih _ ?_)
      rw [Swap_length]
      omega
    · exact OnlySwaps.refl _ l

theorem insertionLoop_onlySwaps (key : KeyFunc F) :
    ∀ (is : List Nat) (l : List (Segment F)), (∀ i ∈ is, i < l.length) →
      OnlySwaps (segmentKeySorter key) l
        (is.foldl (fun d i => insertionInner (segmentKeySorter key) d i) l) := by
  intro is
  induction is with
  | nil => intro l _; exact OnlySwaps.refl _ l
  | cons i is ih =>
    intro l h
    have h1 := insertionInner_onlySwaps key i l (h i (List.mem_cons_self _ _))
    refine h1.trans (ih _ ?_)
    intro k hk
    rw [h1.perm.length_eq]
    exact h k (List.mem_cons_of_mem _ hk)

theorem insertionSort_onlySwaps (key : KeyFunc F) (l : List (Segment F)) :
    OnlySwaps (segmentKeySorter key) l (insertionSort (segmentKeySorter key) l) := by
  apply insertionLoop_onlySwaps
  intro i hi
  rw [List.mem_range'_1] at hi
  simp only [segmentKeySorter] at hi
  omega

theorem Less_adjacent (key : KeyFunc F) (pre post : List (Segment F)) (y x : Segment F) :
    (segmentKeySorter key).Less (pre ++ y :: x :: post) (pre.length + 1) pre.length =
      decide (key x < key y) := by
  simp only [segmentKeySorter, getElem_adjacent_right, getElem_adjacent_left]

theorem Swap_adjacent (key : KeyFunc F) (pre post : List (Segment F)) (y x : Segment F) :
    (segmentKeySorter key).Swap (pre ++ y :: x :: post) (pre.length + 1) pre.length =
      pre ++ x :: y :: post := by
  simp only [segmentKeySorter, getElem_adjacent_right, getElem_adjacent_left]
  rw [List.set_append_right _ _ (by omega), List.set_append_right _ _ (by simp)]
  simp

/-- One pass of the inner loop inserts the element at index `j` into the sorted prefix
before it. -/
theorem insertionInner_sorted (key : KeyFunc F) :
    ∀ (j : Nat) (pre : List (Segment F)) (x : Segment F) (post : List (Segment F)),
      pre.length = j → pre.Pairwise (fun a b => key a ≤ key b) →
      ∃ pre' : List (Segment F), pre'.length = j + 1 ∧
        pre'.Pairwise (fun a b => key a ≤ key b) ∧ (∀ z ∈ pre', z ∈ pre ∨ z = x) ∧
        insertionInner (segmentKeySorter key) (pre ++ x :: post) j = pre' ++ post := by
  intro j
  induction j with
  | zero =>
    intro pre x post hlen _
    have hpre : pre = [] := List.length_eq_zero.mp hlen
    subst hpre
    exact ⟨[x], rfl, List.pairwise_singleton _ _, by simp, by simp [insertionInner]⟩
  | succ j ih =>
    intro pre x post hlen hsorted
    rcases List.eq_nil_or_concat pre with hnil | ⟨pre0, y, hpre⟩
    · subst hnil
      simp at hlen
    · rw [List.concat_eq_append] at hpre
      subst hpre
      have hj : pre0.length = j := by simpa using hlen
      subst hj
      rw [List.pairwise_append] at hsorted
      obtain ⟨hs0, -, hle⟩ := hsorted
      have hshape : pre0 ++ [y] ++ x :: post = pre0 ++ y :: x :: post := by simp
      rw [hshape, insertionInner, Less_adjacent]
      by_cases hlt : key x < key y
      · simp only [hlt, decide_True, if_true]
        rw [Swap_adjacent]
        obtain ⟨pre', hl, hs, hm, he⟩ := ih pre0 x (y :: post) rfl hs0
        refine ⟨pre' ++ [y], by simp [hl], ?_, ?_, by rw [he]; simp⟩
        · rw [List.pairwise_append]
          refine ⟨hs, List.pairwise_singleton _ _, ?_⟩
          intro a ha b hb
          rw [List.mem_singleton] at hb
          subst hb
          rcases hm a ha with h1 | h1
          · exact hle a h1 b (List.mem_singleton_self b)
          · subst h1
            exact le_of_lt hlt
        · intro z hz
          rcases List.mem_append.mp hz with h1 | h1
          · rcases hm z h1 with h2 | h2
            · exact Or.inl (List.mem_append_left _ h2)
            · exact Or.inr h2
          · exact Or.inl (List.mem_append_right _ h1)
      · simp only [hlt, decide_False, Bool.false_eq_true, if_false]
        have hyx : key y ≤ key x := not_lt.mp hlt
        refine ⟨pre0 ++ [y] ++ [x], by simp, ?_, ?_, by simp⟩
        · rw [List.pairwise_append]
          refine ⟨?_, List.pairwise_singleton _ _, ?_⟩
          · rw [List.pairwise_append]
            exact ⟨hs0, List.pairwise_singleton _ _, hle⟩
          · intro a ha b hb
            rw [List.mem_singleton] at hb
            subst hb
            rcases List.mem_append.mp ha with h1 | h1
            · exact le_trans (hle a h1 y (List.mem_singleton_self y)) hyx
            · rw [List.mem_singleton] at h1
              subst h1
              exact hyx
        · intro z hz
          rcases List.mem_append.mp hz with h1 | h1
          · exact Or.inl h1
          · exact Or.inr (List.mem_singleton.mp h1)

/-- The outer loop extends the sorted prefix over the whole slice. -/
theorem insertionLoop_sorted (key : KeyFunc F) :
    ∀ (m k : Nat) (pre post : List (Segment F)), pre.length = k → post.length = m →
      pre.Pairwise (fun a b => key a ≤ key b) →
      ((List.range' k m).foldl (fun d i => insertionInner (segmentKeySorter key) d i)
        (pre ++ post)).Pairwise (fun a b => key a ≤ key b) := by
  intro m
  induction m with
  | zero =>
    intro k pre post _ hpost hs
    have : post = [] := List.length_eq_zero.mp hpost
    subst this
    simpa using hs
  | succ m ih =>
    intro k pre post hpre hpost hs
    cases post with
    | nil => simp at hpost
    | cons x post =>
      obtain ⟨pre', hl, hs', -, he⟩ := insertionInner_sorted key k pre x post hpre hs
      simp only [List.range'_succ, List.foldl_cons, he]
      exact ih (k + 1) pre' post hl (by simpa using hpost) hs'

theorem insertionSort_sorted (key : KeyFunc F) (l : List (Segment F)) :
    (insertionSort (segmentKeySorter key) l).Pairwise (fun a b => key a ≤ key b) := by
  cases l with
  | nil => simp [insertionSort, segmentKeySorter]
  | cons x rest =>
    have h := insertionLoop_sorted key rest.length 1 [x] rest rfl rfl
      (List.pairwise_singleton _ _)
    simpa [insertionSort, segmentKeySorter] using h

/-- Insertion sort meets the contract of `sort.Sort` on a `segmentKeySorter`, for every
slice and every key function. -/
theorem insertionSort_spec (key : KeyFunc F) (l : List (Segment F)) :
    SortSpec (segmentKeySorter key) l (insertionSort (segmentKeySorter key) l) := by
  refine ⟨insertionSort_onlySwaps key l, ?_⟩
  intro i hi
  have hi' : i + 1 < (insertionSort (segmentKeySorter key) l).length := hi
  rw [Less_eq key _ (i + 1) i hi' (by omega)]
  have hs := insertionSort_sorted key l
  rw [List.pairwise_iff_getElem] at hs
  have := hs i (i + 1) (by omega) hi' (by omega)
  simpa using this

end InsertionSort

section AnswerLemmas

theorem answerAt_failure_empty {σ F : Type} (svc : ExploreService σ F)
    (sel : σ → Box F → Bool) (msg t : String) (c : σ) (b : Box F) :
    (answerAt svc sel ([], some msg) c b t).1.1 = (answerAt svc sel ([], none) c b t).1.1 ∧
      (answerAt svc sel ([], some msg) c b t).2 = (answerAt svc sel ([], none) c b t).2 := by
  unfold answerAt
  split <;> simp

/-- The sanity check of `main` rejects exactly when south > north or west > east. -/
theorem boundsRejected_iff {F : Type} [LinearOrder F] (s w n e : F) :
    boundsRejected s w n e = true ↔ (n < s ∨ e < w) := by
  simp [boundsRejected]

/-- Bounds with south < north and west < east pass the sanity check of `main`. -/
theorem boundsRejected_of_valid {F : Type} [LinearOrder F] (s w n e : F)
    (hsn : s < n) (hwe : w < e) : boundsRejected s w n e = false := by
  rw [← Bool.not_eq_true, boundsRejected_iff]
  rintro (h | h)
  · exact lt_asymm hsn h
  · exact lt_asymm hwe h

end AnswerLemmas

section FailureLemmas

variable {σ F : Type} [Add F] [Sub F] [Div F] [OfNat F 2]

/-- Two services that return the same slices and move the client state alike lead `recur`
to the same slice, client state and record of queries. -/
theorem recur_sameButLog (svc₁ svc₂ : ExploreService σ F) (t : String)
    (h : ∀ c b, (svc₁ c b t).1.1 = (svc₂ c b t).1.1 ∧ (svc₁ c b t).2 = (svc₂ c b t).2) :
    ∀ (k : Nat) (i : Int), i.toNat = k → ∀ (st₁ st₂ : ExploreState σ F) (s w n e : F),
      SameButLog st₁ st₂ →
        SameButLog (recur svc₁ t st₁ s w n e i) (recur svc₂ t st₂ s w n e i) := by
  have hq : ∀ (st₁ st₂ : ExploreState σ F) (s w n e : F) (i : Int), SameButLog st₁ st₂ →
      SameButLog (queried svc₁ t st₁ s w n e i) (queried svc₂ t st₂ s w n e i) := by
    intro st₁ st₂ s w n e i hs
    obtain ⟨h1, h2, h3⟩ := hs
    obtain ⟨h4, h5⟩ := h st₂.client ⟨s, w, n, e⟩
    simp only [SameButLog, queried, h1, h2, h3, h4, h5, and_self]
  intro k
  induction k with
  | zero =>
    intro i hi st₁ st₂ s w n e hs
    rw [recur_of_nonpos svc₁ t st₁ s w n e i (by omega),
      recur_of_nonpos svc₂ t st₂ s w n e i (by omega)]
    exact hq _ _ _ _ _ _ _ hs
  | succ k ih =>
    intro i hi st₁ st₂ s w n e hs
    rw [recur_of_pos svc₁ t st₁ s w n e i (by omega),
      recur_of_pos svc₂ t st₂ s w n e i (by omega)]
    have hk : (i - 1).toNat = k := by omega
    exact ih _ hk _ _ _ _ _ _ (ih _ hk _ _ _ _ _ _ (ih _ hk _ _ _ _ _ _
      (ih _ hk _ _ _ _ _ _ (hq _ _ _ _ _ _ _ hs))))

end FailureLemmas

section ChildBoxes

variable {σ F : Type} [Add F] [Sub F] [Div F] [OfNat F 2]

/-- The boxes of the four recursive calls at depth 1, in call order. -/
theorem childBoxes_eq (svc : ExploreService σ F) (client : σ) (s w n e : F) (t : String) :
    childBoxes svc client s w n e t =
      [⟨s + (n - s) / 2, w, n, e + (w - e) / 2⟩, ⟨s + (n - s) / 2, e + (w - e) / 2, n, e⟩,
        ⟨s, e + (w - e) / 2, s + (n - s) / 2, e⟩, ⟨s, w, s + (n - s) / 2, e + (w - e) / 2⟩] := by
  have h := recur_trace_boxes svc t 1 ⟨[], client, [], []⟩ s w n e
  simp only [childBoxes, explore]
  rw [show (1 : Int) = ((1 : Nat) : Int) from rfl, h]
  simp [treeBoxes]

end ChildBoxes

section ExploreOrder

variable {σ F : Type} [Add F] [Sub F] [Div F] [OfNat F 2]

/-- The boxes queried by `recur`, for every depth: a depth below 0 counts as 0. -/
theorem recur_trace_boxes_int (svc : ExploreService σ F) (t : String)
    (st : ExploreState σ F) (s w n e : F) (i : Int) :
    (recur svc t st s w n e i).trace.map Prod.fst =
      st.trace.map Prod.fst ++ treeBoxes i.toNat ⟨s, w, n, e⟩ := by
  rcases le_or_lt 0 i with h | h
  · obtain ⟨d, rfl⟩ := Int.eq_ofNat_of_zero_le h
    rw [recur_trace_boxes]
    simp
  · rw [recur_of_nonpos svc t st s w n e i (le_of_lt h),
      show i.toNat = 0 from Int.toNat_eq_zero.mpr (le_of_lt h)]
    simp [queried, treeBoxes]

theorem explore_of_nonpos (svc : ExploreService σ F) (client : σ) (s w n e : F)
    (t : String) (i : Int) (hi : i ≤ 0) :
    explore svc client s w n e t i = queried svc t ⟨[], client, [], []⟩ s w n e i :=
  recur_of_nonpos svc t _ s w n e i hi

end ExploreOrder

section MapGetLemmas

variable {V : Type}

theorem GoMap.get_set (m : GoMap V) (k : Int) (v : V) (k' : Int) :
    GoMap.get (GoMap.set m k v) k' = if k = k' then some v else GoMap.get m k' := by
  induction m with
  | nil =>
    by_cases h : k = k' <;> simp [GoMap.set, GoMap.get, h]
  | cons p rest ih =>
    obtain ⟨k₀, v₀⟩ := p
    by_cases h0 : k₀ = k
    · subst h0
      by_cases h : k₀ = k' <;> simp [GoMap.set, GoMap.get, h]
    · by_cases h : k₀ = k'
      · subst h
        have hk : ¬ k = k₀ := fun e => h0 e.symm
        simp [GoMap.set, GoMap.get, h0, hk]
      · simp only [GoMap.set, GoMap.get, h0, h, if_false, ih]

theorem GoMap.get_eq_none_iff (m : GoMap V) (k : Int) :
    GoMap.get m k = none ↔ k ∉ m.map Prod.fst := by
  induction m with
  | nil => simp [GoMap.get]
  | cons p rest ih =>
    obtain ⟨k₀, v₀⟩ := p
    by_cases h : k₀ = k
    · simp [GoMap.get, h]
    · have hk : ¬ k = k₀ := fun e => h e.symm
      simp [GoMap.get, h, hk, ih]

theorem GoMap.mem_of_get (m : GoMap V) (k : Int) (v : V) (h : GoMap.get m k = some v) :
    (k, v) ∈ m := by
  induction m with
  | nil => simp [GoMap.get] at h
  | cons p rest ih =>
    obtain ⟨k₀, v₀⟩ := p
    by_cases h0 : k₀ = k
    · simp only [GoMap.get, h0, if_true, Option.some.injEq] at h
      subst h0 h
      exact List.mem_cons_self _ _
    · simp only [GoMap.get, h0, if_false] at h
      exact List.mem_cons_of_mem _ (ih h)

theorem GoMap.get_of_mem (m : GoMap V) (k : Int) (v : V) (hnd : (m.map Prod.fst).Nodup)
    (h : (k, v) ∈ m) : GoMap.get m k = some v := by
  induction m with
  | nil => cases h
  | cons p rest ih =>
    obtain ⟨k₀, v₀⟩ := p
    rw [List.map_cons, List.nodup_cons] at hnd
    rcases List.mem_cons.mp h with h1 | h1
    · cases h1
      simp [GoMap.get]
    · have hne : ¬ k₀ = k := by
        intro e
        subst e
        exact hnd.1 (List.mem_map.mpr ⟨(k₀, v), h1, rfl⟩)
      simp only [GoMap.get, hne, if_false]
      exact ih hnd.2 h1

end MapGetLemmas

section LastOccurrence

variable {F : Type}

theorem collect_get_of_not_mem (S : List (Segment F)) (k : Int) :
    ∀ m : GoMap (Segment F), (∀ y ∈ S, y.Id ≠ k) →
      GoMap.get (S.foldl (fun m val => GoMap.set m val.Id val) m) k = GoMap.get m k := by
  induction S with
  | nil => intro m _; rfl
  | cons a S ih =>
    intro m h
    rw [List.foldl_cons, ih _ (fun y hy => h y (List.mem_cons_of_mem _ hy)), GoMap.get_set,
      if_neg (h a (List.mem_cons_self _ _))]

/-- The map built by `deduplicate` binds an id to the last segment of the slice with it. -/
theorem idSegments_get_last (pre post : List (Segment F)) (x : Segment F)
    (h : ∀ y ∈ post, y.Id ≠ x.Id) :
    GoMap.get (idSegments (pre ++ x :: post)) x.Id = some x := by
  unfold idSegments
  rw [List.foldl_append, List.foldl_cons, collect_get_of_not_mem post x.Id _ h, GoMap.get_set,
    if_pos rfl]

theorem exists_last_with_id (S : List (Segment F)) (k : Int)
    (h : k ∈ S.map (fun x => x.Id)) :
    ∃ pre z post, S = pre ++ z :: post ∧ z.Id = k ∧ ∀ y ∈ post, y.Id ≠ k := by
  induction S with
  | nil => simp at h
  | cons a S ih =>
    by_cases hk : k ∈ S.map (fun x => x.Id)
    · obtain ⟨pre, z, post, hS, hz, hpost⟩ := ih hk
      exact ⟨a :: pre, z, post, by rw [hS]; rfl, hz, hpost⟩
    · have ha : a.Id = k := by
        rcases List.mem_cons.mp h with h1 | h1
        · exact h1.symm
        · exact absurd h1 hk
      refine ⟨[], a, S, rfl, ha, ?_⟩
      intro y hy e
      exact hk (List.mem_map.mpr ⟨y, hy, e⟩)

theorem mem_deduplicate_iff (ρ : RangeOrder) (S : List (Segment F)) (x : Segment F) :
    x ∈ deduplicate ρ S ↔ GoMap.get (idSegments S) x.Id = some x := by
  rw [deduplicate_eq, List.mem_map]
  constructor
  · rintro ⟨p, hp, rfl⟩
    have hp' := (ρ.visit_perm _).mem_iff.mp hp
    have hid := (idSegments_mem S p hp').2
    apply GoMap.get_of_mem _ _ _ (idSegments_nodup S)
    rw [hid]
    exact hp'
  · intro h
    exact ⟨(x.Id, x), (ρ.visit_perm _).mem_iff.mpr (GoMap.mem_of_get _ _ _ h), rfl⟩

end LastOccurrence

section EnrichLemmas

variable {τ F : Type}

/-- A failed query, or one with no entries, makes `SegmentLeader` return `nil`. -/
theorem SegmentLeader_of_failed (lb : LeaderboardService τ) (c : τ) (id : Int)
    (h : (lb c id).1.2 ≠ none ∨ (lb c id).1.1.EntryCount ≤ 0) :
    SegmentLeader lb c id = Except.ok (none, (lb c id).2) := by
  unfold SegmentLeader
  have : ¬ ((lb c id).1.2 = none ∧ (lb c id).1.1.EntryCount > 0) := by
    rintro ⟨h1, h2⟩
    rcases h with h | h
    · exact h h1
    · omega
  simp only [this, if_false]

/-- A query that succeeds with a positive count makes `SegmentLeader` return its first
entry. -/
theorem SegmentLeader_of_found (lb : LeaderboardService τ) (c : τ) (id : Int)
    (entry : SegmentLeaderboardEntry) (rest : List SegmentLeaderboardEntry)
    (herr : (lb c id).1.2 = none) (hcount : (lb c id).1.1.EntryCount > 0)
    (hentries : (lb c id).1.1.Entries = entry :: rest) :
    SegmentLeader lb c id = Except.ok (some entry, (lb c id).2) := by
  unfold SegmentLeader
  simp only [herr, hcount, and_self, if_true, hentries]

theorem SegmentLeader_ok_of_wellFormed (lb : LeaderboardService τ) (hwf : lb.wellFormed)
    (c : τ) (id : Int) : ∃ r, SegmentLeader lb c id = Except.ok r := by
  by_cases h : (lb c id).1.2 = none ∧ (lb c id).1.1.EntryCount > 0
  · have hne := hwf c id h.1 h.2
    cases hE : (lb c id).1.1.Entries with
    | nil => exact absurd hE hne
    | cons entry rest => exact ⟨_, SegmentLeader_of_found lb c id entry rest h.1 h.2 hE⟩
  · refine ⟨_, SegmentLeader_of_failed lb c id ?_⟩
    by_cases h1 : (lb c id).1.2 = none
    · right
      have : ¬ (lb c id).1.1.EntryCount > 0 := fun h2 => h ⟨h1, h2⟩
      omega
    · exact Or.inl h1

theorem enrichStep_ok (lb : LeaderboardService τ) (st st' : EnrichState τ) (sm : Segment F)
    (h : enrichStep lb st sm = Except.ok st') :
    ∃ leader c, SegmentLeader lb st.client sm.Id = Except.ok (leader, c) ∧
      st' = { details := match leader with
                | some entry => GoMap.set st.details sm.Id entry
                | none => st.details
              client := c
              bar := st.bar + 1
              lookups := st.lookups ++ [(sm.Id, leader)] } := by
  unfold enrichStep at h
  cases hS : SegmentLeader lb st.client sm.Id with
  | error msg => rw [hS] at h; cases h
  | ok r =>
    obtain ⟨leader, c⟩ := r
    rw [hS] at h
    simp only [Except.ok.injEq] at h
    exact ⟨leader, c, rfl, h.symm⟩

theorem enrichStep_consistent (lb : LeaderboardService τ) (st st' : EnrichState τ)
    (sm : Segment F) (h : enrichStep lb st sm = Except.ok st') (hc : st.consistent) :
    st'.consistent ∧ st'.lookups.map Prod.fst = st.lookups.map Prod.fst ++ [sm.Id] ∧
      st'.bar = st.bar + 1 := by
  obtain ⟨leader, c, -, rfl⟩ := enrichStep_ok lb st st' sm h
  obtain ⟨h1, h2⟩ := hc
  refine ⟨⟨?_, ?_⟩, by simp, rfl⟩
  · intro r hr hsome
    simp only [List.mem_append, List.mem_singleton] at hr
    cases leader with
    | none =>
      rcases hr with hr | hr
      · exact h1 r hr hsome
      · subst hr
        simp at hsome
    | some entry =>
      simp only [GoMap.get_set]
      split
      · rfl
      · rcases hr with hr | hr
        · exact h1 r hr hsome
        · subst hr
          rename_i hne
          exact absurd rfl hne
  · intro k v hget
    simp only [List.mem_append, List.mem_singleton]
    cases leader with
    | none => exact Or.inl (h2 k v hget)
    | some entry =>
      simp only [GoMap.get_set] at hget
      split at hget
      · rename_i hk
        subst hk
        cases hget
        exact Or.inr rfl
      · exact Or.inl (h2 k v hget)

theorem enrichLoop_consistent (lb : LeaderboardService τ) :
    ∀ (segments : List (Segment F)) (st out : EnrichState τ),
      enrichLoop lb segments st = Except.ok out → st.consistent →
        out.consistent ∧
          out.lookups.map Prod.fst = st.lookups.map Prod.fst ++ segments.map (fun x => x.Id) ∧
          out.bar = st.bar + segments.length := by
  intro segments
  induction segments with
  | nil =>
    intro st out h hc
    simp only [enrichLoop, Except.ok.injEq] at h
    subst h
    exact ⟨hc, by simp, rfl⟩
  | cons sm rest ih =>
    intro st out h hc
    rw [enrichLoop] at h
    cases hS : enrichStep lb st sm with
    | error msg => rw [hS] at h; cases h
    | ok st' =>
      rw [hS] at h
      obtain ⟨hc', hl', hb'⟩ := enrichStep_consistent lb st st' sm hS hc
      obtain ⟨hc'', hl'', hb''⟩ := ih st' out h hc'
      refine ⟨hc'', ?_, ?_⟩
      · rw [hl'', hl']
        simp
      · rw [hb'', hb', List.length_cons]
        omega

theorem enrichLoop_ok_of_wellFormed (lb : LeaderboardService τ) (hwf : lb.wellFormed) :
    ∀ (segments : List (Segment F)) (st : EnrichState τ),
      ∃ out, enrichLoop lb segments st = Except.ok out := by
  intro segments
  induction segments with
  | nil => intro st; exact ⟨st, rfl⟩
  | cons sm rest ih =>
    intro st
    obtain ⟨r, hr⟩ := SegmentLeader_ok_of_wellFormed lb hwf st.client sm.Id
    obtain ⟨leader, c⟩ := r
    rw [enrichLoop]
    simp only [enrichStep, hr]
    exact ih _

end EnrichLemmas

theorem sampleLeaderboard_wellFormed : sampleLeaderboard.wellFormed := by
  intro c id _ hcount
  unfold sampleLeaderboard at hcount ⊢
  split
  · rename_i h
    simp [h] at hcount
  · split
    · rename_i h1 h2
      simp [h1, h2] at hcount
    · simp

section BoxGeometry

variable {F : Type} [LinearOrderedField F]

theorem Box.inside_refl (b : Box F) : b.inside b :=
  ⟨le_rfl, le_rfl, le_rfl, le_rfl⟩

theorem Box.inside_trans {a b c : Box F} (h1 : a.inside b) (h2 : b.inside c) :
    a.inside c :=
  ⟨le_trans h2.1 h1.1, le_trans h1.2.1 h2.2.1, le_trans h2.2.2.1 h1.2.2.1,
    le_trans h1.2.2.2 h2.2.2.2⟩

/-- The four boxes of the recursive calls for a valid box are valid and inside it. -/
theorem quadrants_valid_inside (s w n e : F) (hsn : s < n) (hwe : w < e) :
    ((⟨s + (n - s) / 2, w, n, e + (w - e) / 2⟩ : Box F).valid ∧
        (⟨s + (n - s) / 2, w, n, e + (w - e) / 2⟩ : Box F).inside ⟨s, w, n, e⟩) ∧
      ((⟨s + (n - s) / 2, e + (w - e) / 2, n, e⟩ : Box F).valid ∧
        (⟨s + (n - s) / 2, e + (w - e) / 2, n, e⟩ : Box F).inside ⟨s, w, n, e⟩) ∧
      ((⟨s, e + (w - e) / 2, s + (n - s) / 2, e⟩ : Box F).valid ∧
        (⟨s, e + (w - e) / 2, s + (n - s) / 2, e⟩ : Box F).inside ⟨s, w, n, e⟩) ∧
      ((⟨s, w, s + (n - s) / 2, e + (w - e) / 2⟩ : Box F).valid ∧
        (⟨s, w, s + (n - s) / 2, e + (w - e) / 2⟩ : Box F).inside ⟨s, w, n, e⟩) := by
  have h1 : s < s + (n - s) / 2 := by linarith
  have h2 : s + (n - s) / 2 < n := by linarith
  have h3 : w < e + (w - e) / 2 := by linarith
  have h4 : e + (w - e) / 2 < e := by linarith
  simp only [Box.valid, Box.inside]
  exact ⟨⟨⟨h2, h3⟩, le_of_lt h1, le_rfl, le_rfl, le_of_lt h4⟩,
    ⟨⟨h2, h4⟩, le_of_lt h1, le_rfl, le_of_lt h3, le_rfl⟩,
    ⟨⟨h1, h4⟩, le_rfl, le_of_lt h2, le_of_lt h3, le_rfl⟩,
    ⟨⟨h1, h3⟩, le_rfl, le_of_lt h2, le_rfl, le_of_lt h4⟩⟩

/-- Every box of the recursion tree below a valid box is valid and inside it. -/
theorem treeBoxes_valid_inside (d : Nat) :
    ∀ b : Box F, b.valid → ∀ c ∈ treeBoxes d b, c.valid ∧ c.inside b := by
  induction d with
  | zero =>
    intro b hb c hc
    simp only [treeBoxes, List.mem_singleton] at hc
    subst hc
    exact ⟨hb, Box.inside_refl _⟩
  | succ d ih =>
    intro b hb c hc
    obtain ⟨s, w, n, e⟩ := b
    obtain ⟨⟨v1, i1⟩, ⟨v2, i2⟩, ⟨v3, i3⟩, ⟨v4, i4⟩⟩ :=
      quadrants_valid_inside s w n e hb.1 hb.2
    simp only [treeBoxes, List.mem_cons, List.mem_append] at hc
    rcases hc with hc | ((hc | hc) | hc) | hc
    · subst hc
      exact ⟨hb, Box.inside_refl _⟩
    · exact ⟨(ih _ v1 c hc).1, Box.inside_trans (ih _ v1 c hc).2 i1⟩
    · exact ⟨(ih _ v2 c hc).1, Box.inside_trans (ih _ v2 c hc).2 i2⟩
    · exact ⟨(ih _ v3 c hc).1, Box.inside_trans (ih _ v3 c hc).2 i3⟩
    · exact ⟨(ih _ v4 c hc).1, Box.inside_trans (ih _ v4 c hc).2 i4⟩

end BoxGeometry

section DepthMonotone

variable {σ F : Type} [Add F] [Sub F] [Div F] [OfNat F 2]

/-- The recursion tree of depth `d` is part of the tree of depth `d + 1`. -/
theorem treeBoxes_subset_succ (d : Nat) :
    ∀ (b c : Box F), c ∈ treeBoxes d b → c ∈ treeBoxes (d + 1) b := by
  induction d with
  | zero =>
    intro b c hc
    simp only [treeBoxes, List.mem_singleton] at hc
    subst hc
    simp [treeBoxes]
  | succ d ih =>
    intro b c hc
    rw [treeBoxes] at hc ⊢
    simp only [List.mem_cons, List.mem_append] at hc ⊢
    rcases hc with hc | ((hc | hc) | hc) | hc
    · exact Or.inl hc
    · exact Or.inr (Or.inl (Or.inl (Or.inl (ih _ c hc))))
    · exact Or.inr (Or.inl (Or.inl (Or.inr (ih _ c hc))))
    · exact Or.inr (Or.inl (Or.inr (ih _ c hc)))
    · exact Or.inr (Or.inr (ih _ c hc))

/-- With a deterministic service every recorded slice is the answer for its box. -/
theorem explore_trace_deterministic (svc : ExploreService σ F) (hdet : Deterministic svc)
    (client : σ) (s w n e : F) (t : String) (i : Int) :
    ∀ q ∈ (explore svc client s w n e t i).trace, q.2 = (svc client q.1 t).1.1 := by
  refine recur_preserves svc t (fun st => ∀ q ∈ st.trace, q.2 = (svc client q.1 t).1.1)
    ?_ _ i rfl ⟨[], client, [], []⟩ s w n e (by simp)
  intro st s w n e i h q hq
  simp only [queried, List.mem_append, List.mem_singleton] at hq
  rcases hq with hq | hq
  · exact h q hq
  · subst hq
    exact hdet _ _ _ _

/-- With a deterministic service the ids of the result are those that the service
returns for the boxes of the recursion tree. -/
theorem ExploreArea_mem_ids_deterministic (ρ : RangeOrder) (svc : ExploreService σ F)
    (hdet : Deterministic svc) (client : σ) (s w n e : F) (t : String) (d : Nat) (id : Int) :
    id ∈ (ExploreArea ρ svc client s w n e t (d : Int)).map (fun x => x.Id) ↔
      ∃ b ∈ treeBoxes d ⟨s, w, n, e⟩, id ∈ ((svc client b t).1.1).map (fun x => x.Id) := by
  have hboxes : (explore svc client s w n e t (d : Int)).trace.map Prod.fst =
      treeBoxes d ⟨s, w, n, e⟩ := by
    simpa [explore] using recur_trace_boxes svc t d ⟨[], client, [], []⟩ s w n e
  have hslices := explore_trace_deterministic svc hdet client s w n e t (d : Int)
  unfold ExploreArea
  rw [deduplicate_mem_ids, explore_segments_eq, ← hboxes]
  simp only [List.mem_map, List.mem_flatten]
  constructor
  · rintro ⟨x, ⟨l, ⟨q, hq, rfl⟩, hx⟩, rfl⟩
    exact ⟨q.1, ⟨q, hq, rfl⟩, x, by rw [← hslices q hq]; exact hx, rfl⟩
  · rintro ⟨b, ⟨q, hq, rfl⟩, x, hx, rfl⟩
    exact ⟨x, ⟨q.2, ⟨q, hq, rfl⟩, by rw [hslices q hq]; exact hx⟩, rfl⟩

end DepthMonotone

theorem cornerService_deterministic : Deterministic cornerService := by
  intro c c' b t
  rfl

section ConvertLemmas

variable {F : Type} [LinearOrderedField F]

theorem convertMeters_pos (metric : Bool) (distance : F) (hd : 0 < distance) :
    0 < convertMeters metric distance := by
  unfold convertMeters
  split
  · exact mul_pos hd (by norm_num)
  · exact mul_pos hd (by norm_num)

theorem leaderPace_nonneg (metric : Bool) (ld : SegmentLeaderboardEntry) (distance : F)
    (he : 0 ≤ ld.ElapsedTime) (hd : 0 < distance) : 0 ≤ leaderPace metric ld distance := by
  unfold leaderPace
  have h1 : (0 : F) ≤ (ld.ElapsedTime : F) := by exact_mod_cast he
  exact div_nonneg (div_nonneg h1 (by norm_num)) (le_of_lt (convertMeters_pos metric distance hd))

end ConvertLemmas

section PaceLemmas

variable {F : Type} [LinearOrderedField F] [FloorRing F]

theorem int64OfFloat_of_nonneg (x : F) (hx : 0 ≤ x) : int64OfFloat x = ⌊x⌋ := by
  simp [int64OfFloat, hx]

/-- The minutes and seconds of `printLeader` in terms of the floor function. -/
theorem printLeader_fields (metric : Bool) (ld : SegmentLeaderboardEntry) (distance : F)
    (he : 0 ≤ ld.ElapsedTime) (hd : 0 < distance) :
    (printLeader metric ld distance).paceMinutes = ⌊leaderPace metric ld distance⌋ ∧
      (printLeader metric ld distance).paceSeconds =
        ⌊(leaderPace metric ld distance - (⌊leaderPace metric ld distance⌋ : F)) * 60 +
          1 / 2⌋ := by
  have hp := leaderPace_nonneg metric ld distance he hd
  have hm : int64OfFloat (leaderPace metric ld distance) = ⌊leaderPace metric ld distance⌋ :=
    int64OfFloat_of_nonneg _ hp
  have hfr : 0 ≤ leaderPace metric ld distance - (⌊leaderPace metric ld distance⌋ : F) :=
    sub_nonneg.mpr (Int.floor_le _)
  have h60 : (60.0 : F) = 60 := by norm_num
  have h05 : (0.5 : F) = 1 / 2 := by norm_num
  have hs : 0 ≤ (leaderPace metric ld distance - (⌊leaderPace metric ld distance⌋ : F)) * 60 +
      1 / 2 := by positivity
  constructor
  · exact hm
  · show int64OfFloat ((leaderPace metric ld distance -
        ((int64OfFloat (leaderPace metric ld distance) : Int) : F)) * 60.0 + 0.5) = _
    rw [hm, h60, h05, int64OfFloat_of_nonneg _ hs]

/-- The seconds that `printLeader` prints lie between 0 and 60. -/
theorem printLeader_seconds_range (metric : Bool) (ld : SegmentLeaderboardEntry)
    (distance : F) (he : 0 ≤ ld.ElapsedTime) (hd : 0 < distance) :
    0 ≤ (printLeader metric ld distance).paceSeconds ∧
      (printLeader metric ld distance).paceSeconds ≤ 60 := by
  rw [(printLeader_fields metric ld distance he hd).2]
  have h1 := Int.floor_le (leaderPace metric ld distance)
  have h2 := Int.lt_floor_add_one (leaderPace metric ld distance)
  constructor
  · apply Int.floor_nonneg.mpr
    linarith
  · have h3 : (leaderPace metric ld distance - (⌊leaderPace metric ld distance⌋ : F)) * 60 +
        1 / 2 < (((60 + 1 : Int)) : F) := by
      push_cast
      linarith
    exact Int.lt_add_one_iff.mp (Int.floor_lt.mpr h3)

end PaceLemmas

theorem cornerService_depth_one :
    (20 : Int) ∈ (ExploreArea RangeOrder.insertion cornerService () 0 0 4 4 "running"
      ((1 : Nat) : Int)).map (fun x => x.Id) := by
  rw [ExploreArea_mem_ids_deterministic RangeOrder.insertion cornerService
    cornerService_deterministic]
  refine ⟨⟨2, 0, 4, 2⟩, ?_, ?_⟩
  · simp only [treeBoxes, List.mem_cons, List.mem_append, List.mem_singleton]
    norm_num
  · simp only [cornerService, List.map_cons, List.map_nil, List.mem_singleton]
    norm_num

section EnrichService

variable {τ F : Type}

/-- When `SegmentLeader` returns, it returns what the response yields and the state that
the query left behind. -/
theorem SegmentLeader_ok_eq (lb : LeaderboardService τ) (c : τ) (id : Int)
    (r : Option SegmentLeaderboardEntry × τ) (h : SegmentLeader lb c id = Except.ok r) :
    r = (leaderOf lb c id, (lb c id).2) := by
  unfold SegmentLeader at h
  unfold leaderOf
  by_cases hc : (lb c id).1.2 = none ∧ (lb c id).1.1.EntryCount > 0
  · simp only [hc, and_self, if_true] at h ⊢
    cases hE : (lb c id).1.1.Entries with
    | nil => rw [hE] at h; cases h
    | cons entry rest =>
      rw [hE] at h
      simp only [Except.ok.injEq] at h
      rw [← h]
      rfl
  · simp only [hc, if_false, Except.ok.injEq] at h ⊢
    exact h.symm

/-- The record of lookups of the loop is the sequence of queries of the service, and the
client ends in the state these queries leave. -/
theorem enrichLoop_lookups (lb : LeaderboardService τ) :
    ∀ (segments : List (Segment F)) (st out : EnrichState τ),
      enrichLoop lb segments st = Except.ok out →
        out.lookups = st.lookups ++ lookupsFrom lb st.client (segments.map (fun x => x.Id)) ∧
          out.client = clientAfter lb st.client (segments.map (fun x => x.Id)) := by
  intro segments
  induction segments with
  | nil =>
    intro st out h
    simp only [enrichLoop, Except.ok.injEq] at h
    subst h
    simp [lookupsFrom, clientAfter]
  | cons sm rest ih =>
    intro st out h
    rw [enrichLoop] at h
    cases hS : enrichStep lb st sm with
    | error msg => rw [hS] at h; cases h
    | ok st' =>
      rw [hS] at h
      obtain ⟨leader, c, hL, rfl⟩ := enrichStep_ok lb st st' sm hS
      have hr := SegmentLeader_ok_eq lb st.client sm.Id (leader, c) hL
      simp only [Prod.mk.injEq] at hr
      obtain ⟨rfl, rfl⟩ := hr
      obtain ⟨h1, h2⟩ := ih _ out h
      simp only [List.map_cons, lookupsFrom, clientAfter]
      exact ⟨by rw [h1]; simp, h2⟩

theorem lookupsFrom_stateless (lb : LeaderboardService τ) (hst : lb.stateless) (c₀ : τ) :
    ∀ (ids : List Int) (c : τ),
      lookupsFrom lb c ids = ids.map (fun id => (id, leaderOf lb c₀ id)) := by
  intro ids
  induction ids with
  | nil => intro c; rfl
  | cons id ids ih =>
    intro c
    have h : leaderOf lb c id = leaderOf lb c₀ id := by
      unfold leaderOf
      rw [hst c c₀ id]
    simp only [lookupsFrom, List.map_cons, ih, h]

end EnrichService

section Float64Lemmas

theorem int_log_two_eq (x : ℚ) (e : ℤ) (hx : 0 < x) (h1 : (2 : ℚ) ^ e ≤ x)
    (h2 : x < (2 : ℚ) ^ (e + 1)) : Int.log 2 x = e := by
  have hb : 1 < 2 := by norm_num
  apply le_antisymm
  · exact Int.lt_add_one_iff.mp ((Int.lt_zpow_iff_log_lt hb hx).mp (by simpa using h2))
  · exact (Int.zpow_le_iff_le_log hb hx).mp (by simpa using h1)

/-- The rounding of a value whose binary exponent is `e`. -/
theorem round64_eq (x : ℚ) (e : ℤ) (h1 : (2 : ℚ) ^ e ≤ |x|) (h2 : |x| < (2 : ℚ) ^ (e + 1)) :
    round64 x = (roundHalfEven (x / 2 ^ (e - 52)) : ℚ) * 2 ^ (e - 52) := by
  have hpos : 0 < |x| := lt_of_lt_of_le (zpow_pos (by norm_num) e) h1
  have hx : x ≠ 0 := abs_pos.mp hpos
  unfold round64
  rw [if_neg hx, int_log_two_eq |x| e hpos h1 h2]

theorem roundHalfEven_intCast (z : ℤ) : roundHalfEven (z : ℚ) = z := by
  unfold roundHalfEven
  simp

/-- A tie between two integers goes to the even one. -/
theorem roundHalfEven_tie_even (z : ℤ) (hz : z % 2 = 0) :
    roundHalfEven ((z : ℚ) + 1 / 2) = z := by
  have hf : ⌊(z : ℚ) + 1 / 2⌋ = z := by
    rw [Int.floor_eq_iff]
    constructor <;> linarith
  unfold roundHalfEven
  rw [hf]
  have h1 : ¬ ((z : ℚ) + 1 / 2 - (z : ℚ) < 1 / 2) := by
    rw [add_sub_cancel_left]
    exact lt_irrefl _
  have h2 : ¬ ((1 : ℚ) / 2 < (z : ℚ) + 1 / 2 - (z : ℚ)) := by
    rw [add_sub_cancel_left]
    exact lt_irrefl _
  rw [if_neg h1, if_neg h2, if_pos hz]

/-- The values 1 and 1 + 2^-52, neighbours among the float64 values, are not changed by
rounding. -/
theorem round64_one : round64 1 = 1 := by
  rw [round64_eq 1 0 (by norm_num) (by norm_num)]
  have hq : (1 : ℚ) / 2 ^ ((0 : ℤ) - 52) = ((4503599627370496 : ℤ) : ℚ) := by norm_num
  rw [hq, roundHalfEven_intCast]
  norm_num

theorem round64_one_add_ulp : round64 (1 + 1 / 2 ^ 52) = 1 + 1 / 2 ^ 52 := by
  rw [round64_eq (1 + 1 / 2 ^ 52) 0 (by norm_num [abs_of_pos]) (by norm_num [abs_of_pos])]
  have hq : ((1 : ℚ) + 1 / 2 ^ 52) / 2 ^ ((0 : ℤ) - 52) = ((4503599627370497 : ℤ) : ℚ) := by
    norm_num
  rw [hq, roundHalfEven_intCast]
  norm_num

/-- The difference 2^-52 and its half 2^-53 are float64 values. -/
theorem round64_ulp : round64 (1 / 2 ^ 52) = 1 / 2 ^ 52 := by
  rw [round64_eq (1 / 2 ^ 52) (-52) (by norm_num [abs_of_pos]) (by norm_num [abs_of_pos])]
  have hq : ((1 : ℚ) / 2 ^ 52) / 2 ^ ((-52 : ℤ) - 52) = ((4503599627370496 : ℤ) : ℚ) := by
    norm_num
  rw [hq, roundHalfEven_intCast]
  norm_num

theorem round64_half_ulp : round64 (1 / 2 ^ 53) = 1 / 2 ^ 53 := by
  rw [round64_eq (1 / 2 ^ 53) (-53) (by norm_num [abs_of_pos]) (by norm_num [abs_of_pos])]
  have hq : ((1 : ℚ) / 2 ^ 53) / 2 ^ ((-53 : ℤ) - 52) = ((4503599627370496 : ℤ) : ℚ) := by
    norm_num
  rw [hq, roundHalfEven_intCast]
  norm_num

/-- The sum 1 + 2^-53 lies half way between 1 and 1 + 2^-52 and rounds to 1. -/
theorem round64_one_add_half_ulp : round64 (1 + 1 / 2 ^ 53) = 1 := by
  rw [round64_eq (1 + 1 / 2 ^ 53) 0 (by norm_num [abs_of_pos]) (by norm_num [abs_of_pos])]
  have hq : ((1 : ℚ) + 1 / 2 ^ 53) / 2 ^ ((0 : ℤ) - 52) =
      ((4503599627370496 : ℤ) : ℚ) + 1 / 2 := by
    norm_num
  rw [hq, roundHalfEven_tie_even _ (by decide)]
  norm_num

/-- In float64 the split latitude of the box from south 1 to north 1 + 2^-52 is 1. -/
theorem float64_latMid_collapses :
    ((⟨1⟩ : Float64) + ((⟨1 + 1 / 2 ^ 52⟩ : Float64) - ⟨1⟩) / 2) = ⟨1⟩ := by
  have h1 : ((⟨1 + 1 / 2 ^ 52⟩ : Float64) - ⟨1⟩) = ⟨1 / 2 ^ 52⟩ := by
    show (⟨round64 (1 + 1 / 2 ^ 52 - 1)⟩ : Float64) = _
    rw [add_sub_cancel_left, round64_ulp]
  have h2 : ((⟨1 / 2 ^ 52⟩ : Float64) / 2) = ⟨1 / 2 ^ 53⟩ := by
    show (⟨round64 (1 / 2 ^ 52 / 2)⟩ : Float64) = _
    rw [show ((1 : ℚ) / 2 ^ 52 / 2) = 1 / 2 ^ 53 by norm_num, round64_half_ulp]
  rw [h1, h2]
  show (⟨round64 (1 + 1 / 2 ^ 53)⟩ : Float64) = _
  rw [round64_one_add_half_ulp]

end Float64Lemmas

section SortContractLemmas

variable {σ α : Type} {I : Interface σ}

theorem TransitiveOrdering.asymm {less : α → α → Bool} (hT : TransitiveOrdering less)
    (a b : α) (h : less a b = true) : less b a = false := by
  cases hba : less b a with
  | false => rfl
  | true =>
    have h1 := hT.2.1 a b a h hba
    rw [hT.1 a] at h1
    cases h1

theorem SliceView.less_at_adjacent (v : SliceView I α) (d : σ) (pre post : List α) (y x : α)
    (h : v.elems d = pre ++ y :: x :: post) :
    I.Less d (pre.length + 1) pre.length = v.less x y :=
  v.Less_eq d _ _ x y (by rw [h]; exact getElem_adjacent_right pre post y x)
    (by rw [h]; exact getElem_adjacent_left pre post y x)

theorem SliceView.swap_at_adjacent (v : SliceView I α) (d : σ) (pre post : List α) (y x : α)
    (h : v.elems d = pre ++ y :: x :: post) :
    v.elems (I.Swap d (pre.length + 1) pre.length) = pre ++ x :: y :: post := by
  rw [v.Swap_eq d _ _ x y (by rw [h]; exact getElem_adjacent_right pre post y x)
    (by rw [h]; exact getElem_adjacent_left pre post y x), h]
  rw [List.set_append_right _ _ (by omega), List.set_append_right _ _ (by simp)]
  simp

/-- One pass of the inner loop of insertion sort, through any interface: the element at
index `j` is inserted into the sorted prefix before it. -/
theorem SliceView.inner_pass_sorted (v : SliceView I α)
    (hT : TransitiveOrdering v.less) :
    ∀ (j : Nat) (pre : List α) (x : α) (post : List α) (d : σ),
      v.elems d = pre ++ x :: post → pre.length = j →
      pre.Pairwise (fun a b => v.less b a = false) →
      ∃ pre' : List α, pre'.length = j + 1 ∧
        pre'.Pairwise (fun a b => v.less b a = false) ∧ (∀ z ∈ pre', z ∈ pre ∨ z = x) ∧
        pre'.Perm (pre ++ [x]) ∧ v.elems (insertionInner I d j) = pre' ++ post := by
  intro j
  induction j with
  | zero =>
    intro pre x post d hd hlen _
    have hpre : pre = [] := List.length_eq_zero.mp hlen
    subst hpre
    exact ⟨[x], rfl, List.pairwise_singleton _ _, by simp, List.Perm.refl _,
      by simpa [insertionInner] using hd⟩
  | succ j ih =>
    intro pre x post d hd hlen hsorted
    rcases List.eq_nil_or_concat pre with hnil | ⟨pre0, y, hpre⟩
    · subst hnil
      simp at hlen
    · rw [List.concat_eq_append] at hpre
      subst hpre
      have hj : pre0.length = j := by simpa using hlen
      subst hj
      rw [List.pairwise_append] at hsorted
      obtain ⟨hs0, -, hle⟩ := hsorted
      have hshape : v.elems d = pre0 ++ y :: x :: post := by rw [hd]; simp
      rw [insertionInner, v.less_at_adjacent d pre0 post y x hshape]
      cases hlt : v.less x y with
      | true =>
        simp only [if_true]
        obtain ⟨pre', hl, hs, hm, hp, he⟩ := ih pre0 x (y :: post) _
          (v.swap_at_adjacent d pre0 post y x hshape) rfl hs0
        refine ⟨pre' ++ [y], by simp [hl], ?_, ?_, ?_, by rw [he]; simp⟩
        · rw [List.pairwise_append]
          refine ⟨hs, List.pairwise_singleton _ _, ?_⟩
          intro a ha b hb
          rw [List.mem_singleton] at hb
          subst hb
          rcases hm a ha with h1 | h1
          · exact hle a h1 b (List.mem_singleton_self b)
          · subst h1
            exact hT.asymm a b hlt
        · intro z hz
          rcases List.mem_append.mp hz with h1 | h1
          · rcases hm z h1 with h2 | h2
            · exact Or.inl (List.mem_append_left _ h2)
            · exact Or.inr h2
          · exact Or.inl (List.mem_append_right _ h1)
        · have h1 : (pre' ++ [y]).Perm (pre0 ++ [x] ++ [y]) := hp.append_right [y]
          refine h1.trans ?_
          rw [List.append_assoc, List.append_assoc]
          exact List.Perm.append_left pre0 (List.Perm.swap y x [])
      | false =>
        simp only [Bool.false_eq_true, if_false]
        refine ⟨pre0 ++ [y] ++ [x], by simp, ?_, ?_, List.Perm.refl _, by rw [hshape]; simp⟩
        · rw [List.pairwise_append]
          refine ⟨?_, List.pairwise_singleton _ _, ?_⟩
          · rw [List.pairwise_append]
            exact ⟨hs0, List.pairwise_singleton _ _, hle⟩
          · intro a ha b hb
            rw [List.mem_singleton] at hb
            subst hb
            rcases List.mem_append.mp ha with h1 | h1
            · exact hT.2.2 b y a hlt (hle a h1 y (List.mem_singleton_self y))
            · rw [List.mem_singleton] at h1
              subst h1
              exact hlt
        · intro z hz
          rcases List.mem_append.mp hz with h1 | h1
          · exact Or.inl h1
          · exact Or.inr (List.mem_singleton.mp h1)

/-- The outer loop of insertion sort, through any interface. -/
theorem SliceView.outer_loop_sorted (v : SliceView I α)
    (hT : TransitiveOrdering v.less) :
    ∀ (m k : Nat) (pre post : List α) (d : σ), v.elems d = pre ++ post →
      pre.length = k → post.length = m → pre.Pairwise (fun a b => v.less b a = false) →
      (v.elems ((List.range' k m).foldl (fun d i => insertionInner I d i) d)).Perm
          (pre ++ post) ∧
        (v.elems ((List.range' k m).foldl (fun d i => insertionInner I d i) d)).Pairwise
          (fun a b => v.less b a = false) := by
  intro m
  induction m with
  | zero =>
    intro k pre post d hd _ hpost hs
    have : post = [] := List.length_eq_zero.mp hpost
    subst this
    simp only [List.range'_zero, List.foldl_nil, hd, List.append_nil]
    exact ⟨List.Perm.refl _, hs⟩
  | succ m ih =>
    intro k pre post d hd hpre hpost hs
    cases post with
    | nil => simp at hpost
    | cons x post =>
      obtain ⟨pre', hl, hs', -, hp, he⟩ :=
        v.inner_pass_sorted hT k pre x post d hd hpre hs
      simp only [List.range'_succ, List.foldl_cons]
      obtain ⟨h1, h2⟩ := ih (k + 1) pre' post _ he hl (by simpa using hpost) hs'
      refine ⟨h1.trans ?_, h2⟩
      have : (pre' ++ post).Perm (pre ++ [x] ++ post) := hp.append_right post
      simpa using this

/-- Insertion sort keeps the contract of `sort.Sort`, for every interface. -/
theorem insertionSort_contract : SortContract insertionSort := by
  intro σ α I v hT d
  show (v.elems ((List.range' 1 (I.Len d - 1)).foldl (fun d i => insertionInner I d i) d)).Perm
      (v.elems d) ∧
    (v.elems ((List.range' 1 (I.Len d - 1)).foldl (fun d i => insertionInner I d i)
      d)).Pairwise (fun a b => v.less b a = false)
  rw [v.Len_eq d]
  cases hE : v.elems d with
  | nil =>
    simp only [List.length_nil, Nat.zero_sub, List.range'_zero, List.foldl_nil, hE]
    exact ⟨List.Perm.refl _, List.Pairwise.nil⟩
  | cons x rest =>
    have h := v.outer_loop_sorted hT rest.length 1 [x] rest d (by rw [hE]; rfl) rfl rfl
      (List.pairwise_singleton _ _)
    simpa using h

end SortContractLemmas

section KeySorterLawful

variable {F : Type} [LinearOrder F]

/-- Comparing keys with `<` describes a transitive ordering. -/
theorem keySorterView_transitive (key : KeyFunc F) :
    TransitiveOrdering (keySorterView key).less := by
  refine ⟨?_, ?_, ?_⟩
  · intro a
    simp [keySorterView]
  · intro a b c h1 h2
    simp only [keySorterView, decide_eq_true_eq] at h1 h2 ⊢
    exact lt_trans h1 h2
  · intro a b c h1 h2
    simp only [keySorterView, decide_eq_false_iff_not, not_lt] at h1 h2 ⊢
    exact le_trans h2 h1

/-- With a routine that keeps the contract of `sort.Sort`, the slice sorted through a
`segmentKeySorter` is in ascending order of the keys. -/
theorem sorted_of_contract (sortSort : SortRoutine) (hsort : SortContract sortSort)
    (key : KeyFunc F) (segments : List (Segment F)) :
    (sortSort (segmentKeySorter key) segments).Pairwise (fun a b => key a ≤ key b) := by
  have h := (hsort _ _ (segmentKeySorter key) (keySorterView key)
    (keySorterView_transitive key) segments).2
  refine List.Pairwise.imp ?_ h
  intro a b hab
  simpa [keySorterView] using hab

end KeySorterLawful

/-! ## The program on sample inputs -/

/-- The map keeps the last segment of an id at the place of the first. -/
theorem deduplicate_sample :
    deduplicate RangeOrder.insertion
        ([⟨1, "a", 5⟩, ⟨2, "b", 3⟩, ⟨1, "c", 7⟩] : List (Segment ℚ)) =
      [⟨1, "c", 7⟩, ⟨2, "b", 3⟩] := by
  decide

theorem deduplicate_sample_reversed :
    deduplicate RangeOrder.reversed
        ([⟨1, "a", 5⟩, ⟨2, "b", 3⟩, ⟨1, "c", 7⟩] : List (Segment ℚ)) =
      [⟨2, "b", 3⟩, ⟨1, "c", 7⟩] := by
  decide

theorem SortByDistance_sample :
    SortByDistance insertionSort sampleSegments =
      [⟨2, "B", 5⟩, ⟨3, "C", 7⟩, ⟨1, "A", 10⟩] := by
  decide

/-- Depth 1 with a failure at the third query: five queries, the failed one adds nothing
and is logged with the depth of its node. -/
theorem explore_sample :
    (explore sampleService 0 0 0 4 2 "riding" 1).segments.map (fun x => x.Id) =
        [0, 100, 1, 100, 3, 100, 4, 100] ∧
      (explore sampleService 0 0 0 4 2 "riding" 1).logged = [(0, "timeout")] ∧
      (explore sampleService 0 0 0 4 2 "riding" 1).client = 5 := by
  simp [explore, recur_of_pos, recur_zero, queried, sampleService]

/-- The enrichment loop on three segments: only the segment with a leader gets an entry. -/
theorem enrich_sample :
    enrich sampleLeaderboard 0 sampleSegments =
      Except.ok ⟨[(1, ⟨100⟩)], 3, 3, [(1, some ⟨100⟩), (2, none), (3, none)]⟩ := by
  rfl

/-- A response with a positive count and no entry stops the program. -/
theorem SegmentLeader_sample_panic :
    SegmentLeader (fun (c : Unit) (_ : Int) => ((⟨1, []⟩, none), c)) () 7 =
      Except.error "index out of range [0] with length 0" := by
  rfl

/-- Outside the box invariant: at an inverted box, south 2 above north 0, the split
latitude 1 lies below the parent's south, so the least child south is 1 and not 2. -/
theorem childBoxes_inverted_box :
    childBoxes (emptyService ℚ) () 2 0 0 1 "running" =
        [⟨1, 0, 0, 1 / 2⟩, ⟨1, 1 / 2, 0, 1⟩, ⟨2, 1 / 2, 1, 1⟩, ⟨2, 0, 1, 1 / 2⟩] ∧
      ¬ Reassembles (⟨2, 0, 0, 1⟩ : Box ℚ)
        (childBoxes (emptyService ℚ) () 2 0 0 1 "running") := by
  rw [childBoxes_eq]
  constructor
  · norm_num
  · simp only [Reassembles]
    norm_num

/-- Sorting the shuffled segments by distance and by pace key with insertion sort. -/
theorem SortByDistance_shuffled :
    SortByDistance insertionSort shuffledSegments =
      [⟨2, "B", 5⟩, ⟨3, "C", 7⟩, ⟨1, "A", 10⟩] := by
  decide

/-! ## Main theorems -/

/-- C1: for every box, activity type, query service and depth `d ≥ 0`, the recursion of
`ExploreArea` ends and has then issued exactly `(4^(d+1) - 1) / 3` Explore queries, both
by the record of queries and by a counter kept on the service's side: 1 query for depth 0,
5 for depth 1 and 21 for depth 2. -/
theorem explore_query_count {σ F : Type} [Add F] [Sub F] [Div F] [OfNat F 2]
    (svc : ExploreService σ F) (client : σ) (s w n e : F) (t : String) (d : Nat) :
    (explore svc client s w n e t (d : Int)).trace.length = (4 ^ (d + 1) - 1) / 3 ∧
      (explore (counted svc) (client, 0) s w n e t (d : Int)).client.2 =
        (4 ^ (d + 1) - 1) / 3 ∧
      (explore svc client s w n e t 0).trace.length = 1 ∧
      (explore svc client s w n e t 1).trace.length = 5 ∧
      (explore svc client s w n e t 2).trace.length = 21 := by
  have h := fun d : Nat => recur_trace_length svc t d ⟨[], client, [], []⟩ s w n e
  have hc := recur_counted svc t d ⟨[], (client, 0), [], []⟩ s w n e
  refine ⟨?_, ?_, ?_, ?_, ?_⟩
  · simpa [explore] using h d
  · simpa [explore] using hc
  · simpa [explore] using h 0
  · simpa [explore] using h 1
  · simpa [explore] using h 2

/-- C2: for every box, depth and query service, an id is among the ids of the result of
`ExploreArea` exactly when some query of the recursion returned a segment with that id,
the queries being those of all the boxes of the recursion tree (inner nodes and leaves),
and no id occurs twice in the result. -/
theorem ExploreArea_ids {σ F : Type} [Add F] [Sub F] [Div F] [OfNat F 2]
    (ρ : RangeOrder) (svc : ExploreService σ F) (client : σ) (s w n e : F) (t : String)
    (d : Nat) :
    (∀ id : Int, id ∈ (ExploreArea ρ svc client s w n e t (d : Int)).map (fun x => x.Id) ↔
        ∃ q ∈ (explore svc client s w n e t (d : Int)).trace,
          id ∈ q.2.map (fun x => x.Id)) ∧
      (explore svc client s w n e t (d : Int)).trace.map Prod.fst =
        treeBoxes d ⟨s, w, n, e⟩ ∧
      ((ExploreArea ρ svc client s w n e t (d : Int)).map (fun x => x.Id)).Nodup := by
  refine ⟨?_, ?_, ?_⟩
  · intro id
    unfold ExploreArea
    rw [deduplicate_mem_ids, explore_segments_eq]
    simp only [List.mem_map, List.mem_flatten]
    constructor
    · rintro ⟨x, ⟨l, ⟨q, hq, rfl⟩, hx⟩, rfl⟩
      exact ⟨q, hq, x, hx, rfl⟩
    · rintro ⟨q, hq, x, hx, rfl⟩
      exact ⟨x, ⟨q.2, ⟨q, hq, rfl⟩, hx⟩, rfl⟩
  · simpa [explore] using recur_trace_boxes svc t d ⟨[], client, [], []⟩ s w n e
  · exact deduplicate_ids_nodup ρ _

/-- C3: `deduplicate(S)` has exactly one segment per distinct id of `S`: its ids are
pairwise distinct, an id is among them exactly when it is an id of `S` (and then it
occurs once), and every element of the output is an element of `S`. -/
theorem deduplicate_one_per_id {F : Type} (ρ : RangeOrder) (S : List (Segment F)) :
    ((deduplicate ρ S).map (fun x => x.Id)).Nodup ∧
      (∀ k : Int, k ∈ (deduplicate ρ S).map (fun x => x.Id) ↔ k ∈ S.map (fun x => x.Id)) ∧
      (∀ k ∈ S.map (fun x => x.Id), ((deduplicate ρ S).map (fun x => x.Id)).count k = 1) ∧
      (∀ x ∈ deduplicate ρ S, x ∈ S) := by
  refine ⟨deduplicate_ids_nodup ρ S, deduplicate_mem_ids ρ S, ?_, deduplicate_subset ρ S⟩
  intro k hk
  exact List.count_eq_one_of_mem (deduplicate_ids_nodup ρ S)
    ((deduplicate_mem_ids ρ S k).mpr hk)

/-- C4: `deduplicate(deduplicate(S))` and `deduplicate(S)` have the same ids (each id as
often, namely once) and the same length, whatever the two iteration orders. -/
theorem deduplicate_idempotent {F : Type} (ρ₁ ρ₂ : RangeOrder) (S : List (Segment F)) :
    (∀ k : Int, k ∈ (deduplicate ρ₂ (deduplicate ρ₁ S)).map (fun x => x.Id) ↔
        k ∈ (deduplicate ρ₁ S).map (fun x => x.Id)) ∧
      ((deduplicate ρ₂ (deduplicate ρ₁ S)).map (fun x => x.Id)).Perm
        ((deduplicate ρ₁ S).map (fun x => x.Id)) ∧
      (deduplicate ρ₂ (deduplicate ρ₁ S)).length = (deduplicate ρ₁ S).length := by
  have hmem := deduplicate_mem_ids ρ₂ (deduplicate ρ₁ S)
  have hperm : ((deduplicate ρ₂ (deduplicate ρ₁ S)).map (fun x => x.Id)).Perm
      ((deduplicate ρ₁ S).map (fun x => x.Id)) :=
    (List.perm_ext_iff_of_nodup (deduplicate_ids_nodup ρ₂ _)
      (deduplicate_ids_nodup ρ₁ S)).mpr hmem
  refine ⟨hmem, hperm, ?_⟩
  simpa using hperm.length_eq

/-- C5: with a `sort.Sort` that keeps the contract of package `sort` (for every interface
whose `Less` describes a transitive ordering the elements end in ascending order as
determined by `Less`), every adjacent pair `(a, b)` of the result of `SortByDistance` has
`a.distance ≤ b.distance`, every adjacent pair of the result of
`SortByKey(segments, key)` has `key(a) ≤ key(b)` (and so has every pair in order), and
`SortByDistance` is `SortByKey` with the distance as key.  The proof shows that
`segmentKeySorter` is such an interface: `Len`, `Less` and `Swap` act on the slice as
the contract requires and comparing keys with `<` is a transitive ordering. -/
theorem SortByKey_sorted {F : Type} [LinearOrder F] (sortSort : SortRoutine)
    (segments : List (Segment F)) (key : KeyFunc F) (hsort : SortContract sortSort) :
    List.Chain' (fun a b => a.Distance ≤ b.Distance) (SortByDistance sortSort segments) ∧
      List.Chain' (fun a b => key a ≤ key b) (SortByKey sortSort segments key) ∧
      (SortByKey sortSort segments key).Pairwise (fun a b => key a ≤ key b) ∧
      SortByDistance sortSort segments =
        SortByKey sortSort segments (fun s => s.Distance) :=
  ⟨(sorted_of_contract sortSort hsort (fun s => s.Distance) segments).chain',
    (sorted_of_contract sortSort hsort key segments).chain',
    sorted_of_contract sortSort hsort key segments, rfl⟩

/-- The sorted-output theorem at insertion sort, which keeps the contract for every
interface, on three segments that are out of order by distance and by pace key. -/
theorem SortByKey_sorted_witness :
    List.Chain' (fun a b : Segment ℚ => a.Distance ≤ b.Distance)
        (SortByDistance insertionSort shuffledSegments) ∧
      List.Chain' (fun a b : Segment ℚ => paceKey sampleDetails a ≤ paceKey sampleDetails b)
        (SortByKey insertionSort shuffledSegments (paceKey sampleDetails)) ∧
      (SortByKey insertionSort shuffledSegments (paceKey sampleDetails)).Pairwise
        (fun a b : Segment ℚ => paceKey sampleDetails a ≤ paceKey sampleDetails b) ∧
      SortByDistance insertionSort shuffledSegments =
        SortByKey insertionSort shuffledSegments (fun s => s.Distance) :=
  SortByKey_sorted insertionSort shuffledSegments (paceKey sampleDetails)
    insertionSort_contract

/-- C6: when `sort.Sort` changes the data only through `Swap`, the results of `SortByKey`
and of `SortByDistance` are permutations of the input: same length, the same segments
as often, each with all its fields. -/
theorem SortByKey_perm {F : Type} [LT F] [DecidableRel (fun a b : F => a < b)]
    [DecidableEq F] (sortSort : SortRoutine)
    (segments : List (Segment F)) (key : KeyFunc F)
    (hkey : OnlySwaps (segmentKeySorter key) segments
      (sortSort (segmentKeySorter key) segments))
    (hdist : OnlySwaps (segmentKeySorter (fun s : Segment F => s.Distance)) segments
      (sortSort (segmentKeySorter (fun s : Segment F => s.Distance)) segments)) :
    ((SortByKey sortSort segments key).Perm segments ∧
        (SortByKey sortSort segments key).length = segments.length ∧
        ∀ x, (SortByKey sortSort segments key).count x = segments.count x) ∧
      ((SortByDistance sortSort segments).Perm segments ∧
        (SortByDistance sortSort segments).length = segments.length ∧
        ∀ x, (SortByDistance sortSort segments).count x = segments.count x) :=
  ⟨⟨hkey.perm, hkey.perm.length_eq, fun x => hkey.perm.count_eq x⟩,
    ⟨hdist.perm, hdist.perm.length_eq, fun x => hdist.perm.count_eq x⟩⟩

/-- The permutation theorem at insertion sort, three segments and the pace key. -/
theorem SortByKey_perm_witness :
    ((SortByKey insertionSort sampleSegments (paceKey sampleDetails)).Perm sampleSegments ∧
        (SortByKey insertionSort sampleSegments (paceKey sampleDetails)).length =
          sampleSegments.length ∧
        ∀ x, (SortByKey insertionSort sampleSegments (paceKey sampleDetails)).count x =
          sampleSegments.count x) ∧
      ((SortByDistance insertionSort sampleSegments).Perm sampleSegments ∧
        (SortByDistance insertionSort sampleSegments).length = sampleSegments.length ∧
        ∀ x, (SortByDistance insertionSort sampleSegments).count x =
          sampleSegments.count x) :=
  SortByKey_perm insertionSort sampleSegments (paceKey sampleDetails)
    (insertionSort_onlySwaps _ _) (insertionSort_onlySwaps _ _)

/-- C7: the pace key of `main` is `elapsedTime / distance` when the mapping has a record
for the segment's id and the segment's distance otherwise; it is a total function, so a
missing record is no failure.  Segment A (distance 10, record with elapsed 50) has key
5 and segment B (distance 5, no record) has key 5. -/
theorem paceKey_fallback {F : Type} [Div F] [IntCast F]
    (details : GoMap SegmentLeaderboardEntry) (segment : Segment F) :
    (∀ val, GoMap.get details segment.Id = some val →
        paceKey details segment = (val.ElapsedTime : F) / segment.Distance) ∧
      (GoMap.get details segment.Id = none →
        paceKey details segment = segment.Distance) ∧
      paceKey sampleDetails (⟨1, "A", 10⟩ : Segment ℚ) = 5 ∧
      paceKey sampleDetails (⟨2, "B", 5⟩ : Segment ℚ) = 5 := by
  refine ⟨?_, ?_, ?_, ?_⟩
  · intro val h
    simp only [paceKey, h]
  · intro h
    simp only [paceKey, h]
  · simp only [paceKey, sampleDetails, GoMap.set, GoMap.get, if_true]
    norm_num
  · simp [paceKey, sampleDetails, GoMap.set, GoMap.get]

/-- The pace key at segment A (with a record) and at segment B (without). -/
theorem paceKey_fallback_witness :
    paceKey sampleDetails (⟨1, "A", 10⟩ : Segment ℚ) = ((50 : Int) : ℚ) / 10 ∧
      paceKey sampleDetails (⟨2, "B", 5⟩ : Segment ℚ) = 5 :=
  ⟨(paceKey_fallback sampleDetails (⟨1, "A", 10⟩ : Segment ℚ)).1 ⟨50⟩ (by decide),
    (paceKey_fallback sampleDetails (⟨2, "B", 5⟩ : Segment ℚ)).2.1 (by decide)⟩

/-- C8: a query that fails (`Do` returns no slice and an error) at any chosen calls leaves
`ExploreArea` with the result it has when those calls return an empty slice without
error: the accumulated slice, the client state and the record of queries are the same,
so the children and siblings of a failed node are queried and contribute as before; at
depth `d ≥ 0` the boxes queried are those of the whole recursion tree. -/
theorem ExploreArea_failure_as_empty {σ F : Type} [Add F] [Sub F] [Div F] [OfNat F 2]
    (ρ : RangeOrder) (svc : ExploreService σ F) (sel : σ → Box F → Bool) (msg : String)
    (client : σ) (s w n e : F) (t : String) (i : Int) (d : Nat) :
    ExploreArea ρ (answerAt svc sel ([], some msg)) client s w n e t i =
        ExploreArea ρ (answerAt svc sel ([], none)) client s w n e t i ∧
      SameButLog (explore (answerAt svc sel ([], some msg)) client s w n e t i)
        (explore (answerAt svc sel ([], none)) client s w n e t i) ∧
      (explore (answerAt svc sel ([], some msg)) client s w n e t (d : Int)).trace.map
        Prod.fst = treeBoxes d ⟨s, w, n, e⟩ := by
  have h := recur_sameButLog (answerAt svc sel ([], some msg)) (answerAt svc sel ([], none)) t
    (fun c b => answerAt_failure_empty svc sel msg t c b) _ i rfl
    ⟨[], client, [], []⟩ ⟨[], client, [], []⟩ s w n e ⟨rfl, rfl, rfl⟩
  refine ⟨?_, h, ?_⟩
  · unfold ExploreArea
    rw [show (explore (answerAt svc sel ([], some msg)) client s w n e t i).segments =
      (explore (answerAt svc sel ([], none)) client s w n e t i).segments from h.1]
  · simpa [explore] using
      recur_trace_boxes (answerAt svc sel ([], some msg)) t d ⟨[], client, [], []⟩ s w n e

/-- C9: for every box explored at depth 1 (a box that `main` lets through its check has
south ≤ north and west ≤ east), the four child boxes passed to the recursive calls
reassemble the parent: least south, greatest north, least west and greatest east are
the parent's, and neighbouring children share the split edge `latMid` / `lonMid`. -/
theorem childBoxes_reassemble {σ F : Type} [LinearOrderedField F]
    (svc : ExploreService σ F) (client : σ) (s w n e : F) (t : String)
    (hsn : s ≤ n) (hwe : w ≤ e) :
    Reassembles ⟨s, w, n, e⟩ (childBoxes svc client s w n e t) := by
  rw [childBoxes_eq]
  have h1 : s ≤ s + (n - s) / 2 := by linarith
  have h2 : s + (n - s) / 2 ≤ n := by linarith
  have h3 : w ≤ e + (w - e) / 2 := by linarith
  have h4 : e + (w - e) / 2 ≤ e := by linarith
  simp only [Reassembles, min_self, max_self, min_eq_right h1, max_eq_left h2,
    min_eq_left h3, min_eq_right h3, max_eq_left h4, max_eq_right h4, and_self]

/-- The reassembly theorem at the box south 0, west 0, north 4, east 2. -/
theorem childBoxes_reassemble_witness :
    Reassembles (⟨0, 0, 4, 2⟩ : Box ℚ) (childBoxes sampleService 0 0 0 4 2 "riding") :=
  childBoxes_reassemble sampleService 0 0 0 4 2 "riding" (by norm_num) (by norm_num)

/-- C10, at bounds with south = north: the sanity check of `main` does not reject them,
and `ExploreArea` runs. -/
theorem sanityCheck_accepts_equal_bounds :
    boundsRejected (1 : ℚ) 0 1 1 = false ∧
      mainExplore RangeOrder.insertion (emptyService ℚ) () 1 0 1 1 "running" 0 =
        Except.ok (ExploreArea RangeOrder.insertion (emptyService ℚ) () 1 0 1 1 "running" 0) := by
  have h : boundsRejected (1 : ℚ) 0 1 1 = false := by
    simp [boundsRejected]
  exact ⟨h, by simp [mainExplore, h]⟩

/-- C11: for every box, depth and query service the boxes are queried in depth-first
pre-order, the node itself, then the whole subtrees of nw `(latMid, west, north, lonMid)`,
ne `(latMid, lonMid, north, east)`, se `(south, lonMid, latMid, east)` and
sw `(south, west, latMid, lonMid)`, and the accumulated slice before deduplication is the
concatenation of the returned slices in that order. -/
theorem explore_preorder {σ F : Type} [Add F] [Sub F] [Div F] [OfNat F 2]
    (svc : ExploreService σ F) (client : σ) (s w n e : F) (t : String) (i : Int)
    (d : Nat) :
    (explore svc client s w n e t i).trace.map Prod.fst = treeBoxes i.toNat ⟨s, w, n, e⟩ ∧
      (explore svc client s w n e t i).segments =
        ((explore svc client s w n e t i).trace.map Prod.snd).flatten ∧
      (explore svc client s w n e t 0).trace.map Prod.fst = [⟨s, w, n, e⟩] ∧
      (explore svc client s w n e t ((d + 1 : Nat) : Int)).trace.map Prod.fst =
        ⟨s, w, n, e⟩ ::
          (treeBoxes d ⟨s + (n - s) / 2, w, n, e + (w - e) / 2⟩ ++
            treeBoxes d ⟨s + (n - s) / 2, e + (w - e) / 2, n, e⟩ ++
            treeBoxes d ⟨s, e + (w - e) / 2, s + (n - s) / 2, e⟩ ++
            treeBoxes d ⟨s, w, s + (n - s) / 2, e + (w - e) / 2⟩) := by
  have h := fun j : Int => recur_trace_boxes_int svc t ⟨[], client, [], []⟩ s w n e j
  refine ⟨?_, explore_segments_eq svc client s w n e t i, ?_, ?_⟩
  · simpa [explore] using h i
  · simpa [explore, treeBoxes] using h 0
  · simpa [explore, treeBoxes] using h ((d + 1 : Nat) : Int)

/-- C18: for every box and every `iters ≤ 0`, negative values included, `ExploreArea`
issues exactly one query, on the original box, does not subdivide, and returns the
deduplicated slice of that query: the same result, client state and record of queries
as with `iters = 0`. -/
theorem ExploreArea_nonpos_iters {σ F : Type} [Add F] [Sub F] [Div F] [OfNat F 2]
    (ρ : RangeOrder) (svc : ExploreService σ F) (client : σ) (s w n e : F) (t : String)
    (iters : Int) (hi : iters ≤ 0) :
    (explore svc client s w n e t iters).trace =
        [(⟨s, w, n, e⟩, (svc client ⟨s, w, n, e⟩ t).1.1)] ∧
      (explore (counted svc) (client, 0) s w n e t iters).client.2 = 1 ∧
      ExploreArea ρ svc client s w n e t iters =
        deduplicate ρ (svc client ⟨s, w, n, e⟩ t).1.1 ∧
      ExploreArea ρ svc client s w n e t iters = ExploreArea ρ svc client s w n e t 0 ∧
      SameButLog (explore svc client s w n e t iters) (explore svc client s w n e t 0) := by
  have h0 := explore_of_nonpos svc client s w n e t 0 le_rfl
  have hi' := explore_of_nonpos svc client s w n e t iters hi
  have hc := explore_of_nonpos (counted svc) (client, 0) s w n e t iters hi
  refine ⟨?_, ?_, ?_, ?_, ?_⟩
  · simp [hi', queried]
  · simp [hc, queried, counted]
  · simp [ExploreArea, hi', queried]
  · simp [ExploreArea, hi', h0, queried]
  · simp [SameButLog, hi', h0, queried]

/-- The theorem on depths up to 0 at the depth -3. -/
theorem ExploreArea_nonpos_iters_witness :
    (explore sampleService 0 0 0 4 2 "riding" (-3)).trace =
        [(⟨0, 0, 4, 2⟩, (sampleService 0 ⟨0, 0, 4, 2⟩ "riding").1.1)] ∧
      (explore (counted sampleService) (0, 0) 0 0 4 2 "riding" (-3)).client.2 = 1 ∧
      ExploreArea RangeOrder.reversed sampleService 0 0 0 4 2 "riding" (-3) =
        deduplicate RangeOrder.reversed (sampleService 0 ⟨0, 0, 4, 2⟩ "riding").1.1 ∧
      ExploreArea RangeOrder.reversed sampleService 0 0 0 4 2 "riding" (-3) =
        ExploreArea RangeOrder.reversed sampleService 0 0 0 4 2 "riding" 0 ∧
      SameButLog (explore sampleService 0 0 0 4 2 "riding" (-3))
        (explore sampleService 0 0 0 4 2 "riding" 0) :=
  ExploreArea_nonpos_iters RangeOrder.reversed sampleService 0 0 0 4 2 "riding" (-3)
    (by decide)

/-- C16: for every slice `S` and every id occurring in it, the segment that `deduplicate`
keeps for the id is the last one of `S` with that id: every element of the output is
followed in `S` by no segment with its id, and the last segment of `S` with a given id is
an element of the output, the only one with that id. -/
theorem deduplicate_keeps_last {F : Type} (ρ : RangeOrder) (S : List (Segment F)) :
    (∀ x ∈ deduplicate ρ S, ∃ pre post, S = pre ++ x :: post ∧ ∀ y ∈ post, y.Id ≠ x.Id) ∧
      (∀ pre x post, S = pre ++ x :: post → (∀ y ∈ post, y.Id ≠ x.Id) →
        x ∈ deduplicate ρ S ∧ ∀ z ∈ deduplicate ρ S, z.Id = x.Id → z = x) ∧
      (∀ k ∈ S.map (fun x => x.Id), ∃ x ∈ deduplicate ρ S, x.Id = k) := by
  refine ⟨?_, ?_, ?_⟩
  · intro x hx
    have hget := (mem_deduplicate_iff ρ S x).mp hx
    have hk : x.Id ∈ S.map (fun x => x.Id) := List.mem_map.mpr ⟨x, deduplicate_subset ρ S x hx, rfl⟩
    obtain ⟨pre, z, post, hS, hz, hpost⟩ := exists_last_with_id S x.Id hk
    have hget' := idSegments_get_last pre post z (by rw [hz]; exact hpost)
    rw [← hS, hz, hget] at hget'
    cases hget'
    exact ⟨pre, post, hS, hpost⟩
  · intro pre x post hS hpost
    have hget := idSegments_get_last pre post x hpost
    rw [← hS] at hget
    refine ⟨(mem_deduplicate_iff ρ S x).mpr hget, ?_⟩
    intro z hz hid
    have hz' := (mem_deduplicate_iff ρ S z).mp hz
    rw [hid, hget] at hz'
    exact (Option.some.inj hz').symm
  · intro k hk
    obtain ⟨x, hx, hxk⟩ := List.mem_map.mp ((deduplicate_mem_ids ρ S k).mpr hk)
    exact ⟨x, hx, hxk⟩

/-- The theorem on the representative at a slice where id 1 occurs twice. -/
theorem deduplicate_keeps_last_witness :
    (⟨1, "c", 7⟩ : Segment ℚ) ∈ deduplicate RangeOrder.reversed
        [⟨1, "a", 5⟩, ⟨2, "b", 3⟩, ⟨1, "c", 7⟩] ∧
      ∀ z ∈ deduplicate RangeOrder.reversed
          ([⟨1, "a", 5⟩, ⟨2, "b", 3⟩, ⟨1, "c", 7⟩] : List (Segment ℚ)),
        z.Id = 1 → z = ⟨1, "c", 7⟩ :=
  (deduplicate_keeps_last RangeOrder.reversed
    ([⟨1, "a", 5⟩, ⟨2, "b", 3⟩, ⟨1, "c", 7⟩] : List (Segment ℚ))).2.1
    [⟨1, "a", 5⟩, ⟨2, "b", 3⟩] ⟨1, "c", 7⟩ [] rfl (by simp)

/-- C12: after the enrichment loop of `main` the mapping has an entry for an id exactly
when a query of the service made for that id in the loop succeeded with at least one
entry, and the entry bound is one that such a query returned; a failed or empty query
inserts nothing; the queries are those for the segments of the list, one each, in
order, so every key of the mapping is the id of a segment of the list.  For a service
without state an id has an entry exactly when it is the id of a segment of the list and
its query succeeds with an entry.  The loop runs to its end when every response with a
positive entry count carries an entry. -/
theorem enrich_details {τ F : Type} (lb : LeaderboardService τ) (client : τ)
    (segments : List (Segment F)) :
    (∀ out, enrich lb client segments = Except.ok out →
        out.lookups = lookupsFrom lb client (segments.map (fun x => x.Id)) ∧
        out.client = clientAfter lb client (segments.map (fun x => x.Id)) ∧
        (∀ k, (GoMap.get out.details k).isSome = true ↔
          ∃ r ∈ lookupsFrom lb client (segments.map (fun x => x.Id)),
            r.1 = k ∧ r.2.isSome = true) ∧
        (∀ k v, GoMap.get out.details k = some v →
          (k, some v) ∈ lookupsFrom lb client (segments.map (fun x => x.Id))) ∧
        (∀ k ∈ out.details.map Prod.fst, k ∈ segments.map (fun x => x.Id)) ∧
        (lb.stateless → ∀ k, (GoMap.get out.details k).isSome = true ↔
          (k ∈ segments.map (fun x => x.Id) ∧ (leaderOf lb client k).isSome = true)) ∧
        out.bar = segments.length) ∧
      (lb.wellFormed → ∃ out, enrich lb client segments = Except.ok out) ∧
      (∀ c id r, SegmentLeader lb c id = Except.ok r → r = (leaderOf lb c id, (lb c id).2)) ∧
      (∀ c id, ((lb c id).1.2 ≠ none ∨ (lb c id).1.1.EntryCount ≤ 0) →
        SegmentLeader lb c id = Except.ok (none, (lb c id).2)) ∧
      (∀ c id entry rest, (lb c id).1.2 = none → (lb c id).1.1.EntryCount > 0 →
        (lb c id).1.1.Entries = entry :: rest →
        SegmentLeader lb c id = Except.ok (some entry, (lb c id).2)) := by
  refine ⟨?_, fun hwf => enrichLoop_ok_of_wellFormed lb hwf segments _,
    fun c id r h => SegmentLeader_ok_eq lb c id r h,
    fun c id h => SegmentLeader_of_failed lb c id h,
    fun c id entry rest h1 h2 h3 => SegmentLeader_of_found lb c id entry rest h1 h2 h3⟩
  intro out hout
  have hinit : (⟨[], client, 0, []⟩ : EnrichState τ).consistent :=
    ⟨by simp, by simp [GoMap.get]⟩
  obtain ⟨⟨h1, h2⟩, hl, hb⟩ := enrichLoop_consistent lb segments _ out hout hinit
  obtain ⟨hlk, hcl⟩ := enrichLoop_lookups lb segments _ out hout
  simp only [List.nil_append] at hlk
  rw [hlk] at h1 h2
  have hids : (lookupsFrom lb client (segments.map (fun x => x.Id))).map Prod.fst =
      segments.map (fun x => x.Id) := by
    rw [← hlk]
    simpa using hl
  have hiff : ∀ k, (GoMap.get out.details k).isSome = true ↔
      ∃ r ∈ lookupsFrom lb client (segments.map (fun x => x.Id)),
        r.1 = k ∧ r.2.isSome = true := by
    intro k
    constructor
    · intro hsome
      obtain ⟨v, hv⟩ := Option.isSome_iff_exists.mp hsome
      exact ⟨(k, some v), h2 k v hv, rfl, rfl⟩
    · rintro ⟨r, hr, rfl, hsome⟩
      exact h1 r hr hsome
  refine ⟨hlk, hcl, hiff, h2, ?_, ?_, by simpa using hb⟩
  · intro k hk
    cases hget : GoMap.get out.details k with
    | none => exact absurd hk ((GoMap.get_eq_none_iff _ _).mp hget)
    | some v =>
      rw [← hids]
      exact List.mem_map.mpr ⟨(k, some v), h2 k v hget, rfl⟩
  · intro hst k
    rw [hiff k, lookupsFrom_stateless lb hst client]
    simp only [List.mem_map]
    constructor
    · rintro ⟨r, ⟨id, ⟨x, hx, rfl⟩, rfl⟩, rfl, hsome⟩
      exact ⟨⟨x, hx, rfl⟩, hsome⟩
    · rintro ⟨⟨x, hx, rfl⟩, hsome⟩
      exact ⟨(x.Id, leaderOf lb client x.Id), ⟨x.Id, ⟨x, hx, rfl⟩, rfl⟩, rfl, hsome⟩

/-- The enrichment theorem at three segments: the loop runs to its end and leaves an
entry for id 1, whose query finds a leader, and none for id 2, whose query fails, nor
for id 3, whose leaderboard is empty. -/
theorem enrich_details_witness :
    ∃ out, enrich sampleLeaderboard 0 sampleSegments = Except.ok out ∧
      (GoMap.get out.details 1).isSome = true ∧
      (GoMap.get out.details 2).isSome = false ∧
      (GoMap.get out.details 3).isSome = false ∧
      out.details.map Prod.fst = [1] :=
  (((enrich_details sampleLeaderboard 0 sampleSegments).2.1
    sampleLeaderboard_wellFormed).imp) (fun out hout =>
      ⟨hout,
        (((enrich_details sampleLeaderboard 0 sampleSegments).1 out hout).2.2.1 1).mpr
          (by decide),
        Bool.eq_false_iff.mpr (fun h => absurd
          ((((enrich_details sampleLeaderboard 0 sampleSegments).1 out hout).2.2.1 2).mp h)
          (by decide)),
        Bool.eq_false_iff.mpr (fun h => absurd
          ((((enrich_details sampleLeaderboard 0 sampleSegments).1 out hout).2.2.1 3).mp h)
          (by decide)),
        by
          have h := hout
          rw [enrich_sample] at h
          cases h
          rfl⟩)

/-- C14, in float64: the box south 1, west 0, north 1 + 2^-52, east 1 is valid and its
coordinates are float64 values, but the split latitude `1 + (1 + 2^-52 - 1)/2` rounds to 1,
so the se box `(south, lonMid, latMid, east)` passed to the third recursive call has
south = north and is not valid. -/
theorem explore_float64_child_not_valid :
    (⟨⟨1⟩, ⟨0⟩, ⟨1 + 1 / 2 ^ 52⟩, ⟨1⟩⟩ : Box Float64).valid ∧
      (round64 1 = 1 ∧ round64 0 = 0 ∧ round64 (1 + 1 / 2 ^ 52) = 1 + 1 / 2 ^ 52) ∧
      (∃ c ∈ childBoxes (emptyService Float64) () ⟨1⟩ ⟨0⟩ ⟨1 + 1 / 2 ^ 52⟩ ⟨1⟩ "running",
        c.south = c.north ∧ ¬ c.valid) ∧
      ¬ ∀ b ∈ (explore (emptyService Float64) () ⟨1⟩ ⟨0⟩ ⟨1 + 1 / 2 ^ 52⟩ ⟨1⟩
          "running" 1).trace.map Prod.fst, b.valid := by
  have hc : ∃ c ∈ childBoxes (emptyService Float64) () ⟨1⟩ ⟨0⟩ ⟨1 + 1 / 2 ^ 52⟩ ⟨1⟩ "running",
      c.south = c.north ∧ ¬ c.valid := by
    rw [childBoxes_eq, float64_latMid_collapses]
    refine ⟨⟨⟨1⟩, ⟨1⟩ + (⟨0⟩ - ⟨1⟩) / 2, ⟨1⟩, ⟨1⟩⟩, by simp, rfl, ?_⟩
    intro hv
    exact lt_irrefl (1 : ℚ) hv.1
  refine ⟨⟨?_, ?_⟩, ⟨round64_one, by simp [round64], round64_one_add_ulp⟩, hc, ?_⟩
  · show (1 : ℚ) < 1 + 1 / 2 ^ 52
    norm_num
  · show (0 : ℚ) < 1
    norm_num
  · intro hall
    obtain ⟨c, hmem, -, hnv⟩ := hc
    exact hnv (hall c (List.mem_of_mem_tail hmem))

/-- C14, amended: in exact arithmetic (coordinates in an ordered field), for every box with
south < north and west < east the four boxes passed to the recursive calls are valid and
lie inside it, and for every depth every box queried in the recursion is valid and lies
inside the original box. -/
theorem explore_boxes_valid {σ F : Type} [LinearOrderedField F]
    (svc : ExploreService σ F) (client : σ) (s w n e : F) (t : String) (i : Int)
    (hsn : s < n) (hwe : w < e) :
    (∀ c ∈ childBoxes svc client s w n e t, c.valid ∧ c.inside ⟨s, w, n, e⟩) ∧
      ∀ b ∈ (explore svc client s w n e t i).trace.map Prod.fst,
        b.valid ∧ b.inside ⟨s, w, n, e⟩ := by
  constructor
  · intro c hc
    obtain ⟨h1, h2, h3, h4⟩ := quadrants_valid_inside s w n e hsn hwe
    rw [childBoxes_eq] at hc
    simp only [List.mem_cons, List.mem_singleton, List.not_mem_nil, or_false] at hc
    rcases hc with hc | hc | hc | hc <;> subst hc <;> assumption
  · intro b hb
    have h := recur_trace_boxes_int svc t ⟨[], client, [], []⟩ s w n e i
    simp only [List.map_nil, List.nil_append] at h
    rw [explore, h] at hb
    exact treeBoxes_valid_inside i.toNat ⟨s, w, n, e⟩ ⟨hsn, hwe⟩ b hb

/-- The theorem on valid boxes at the box south 0, west 0, north 4, east 2 and depth 2. -/
theorem explore_boxes_valid_witness :
    (∀ c ∈ childBoxes sampleService 0 0 0 4 2 "riding",
        c.valid ∧ c.inside (⟨0, 0, 4, 2⟩ : Box ℚ)) ∧
      ∀ b ∈ (explore sampleService 0 0 0 4 2 "riding" 2).trace.map Prod.fst,
        b.valid ∧ b.inside (⟨0, 0, 4, 2⟩ : Box ℚ) :=
  explore_boxes_valid sampleService 0 0 0 4 2 "riding" 2 (by norm_num) (by norm_num)

/-- C15: for every box the split points `latMid = s + (n - s)/2` and
`lonMid = e + (w - e)/2` are the midpoints `(s + n)/2` and `(w + e)/2`, and each of the four
boxes of the recursive calls has half the latitude extent and half the longitude extent
of the parent (exact arithmetic). -/
theorem childBoxes_midpoints {σ F : Type} [LinearOrderedField F]
    (svc : ExploreService σ F) (client : σ) (s w n e : F) (t : String) :
    s + (n - s) / 2 = (s + n) / 2 ∧ e + (w - e) / 2 = (w + e) / 2 ∧
      childBoxes svc client s w n e t =
        [⟨(s + n) / 2, w, n, (w + e) / 2⟩, ⟨(s + n) / 2, (w + e) / 2, n, e⟩,
          ⟨s, (w + e) / 2, (s + n) / 2, e⟩, ⟨s, w, (s + n) / 2, (w + e) / 2⟩] ∧
      ∀ c ∈ childBoxes svc client s w n e t,
        c.north - c.south = (n - s) / 2 ∧ c.east - c.west = (e - w) / 2 := by
  have hlat : s + (n - s) / 2 = (s + n) / 2 := by ring
  have hlon : e + (w - e) / 2 = (w + e) / 2 := by ring
  refine ⟨hlat, hlon, ?_, ?_⟩
  · rw [childBoxes_eq, hlat, hlon]
  · intro c hc
    rw [childBoxes_eq] at hc
    simp only [List.mem_cons, List.mem_singleton, List.not_mem_nil, or_false] at hc
    rcases hc with hc | hc | hc | hc <;> subst hc <;> constructor <;> ring

/-- C17: for every box, every deterministic query service and every depth `d ≥ 0`, each
id of the result of `ExploreArea` at depth `d` is an id of the result at depth `d + 1`,
whatever the iteration orders of the two deduplications. -/
theorem ExploreArea_depth_monotone {σ F : Type} [Add F] [Sub F] [Div F] [OfNat F 2]
    (ρ ρ' : RangeOrder) (svc : ExploreService σ F) (client : σ) (s w n e : F) (t : String)
    (d : Nat) (hdet : Deterministic svc) :
    ∀ id ∈ (ExploreArea ρ svc client s w n e t (d : Int)).map (fun x => x.Id),
      id ∈ (ExploreArea ρ' svc client s w n e t ((d + 1 : Nat) : Int)).map (fun x => x.Id) := by
  intro id hid
  rw [ExploreArea_mem_ids_deterministic ρ svc hdet] at hid
  rw [ExploreArea_mem_ids_deterministic ρ' svc hdet]
  obtain ⟨b, hb, hmem⟩ := hid
  exact ⟨b, treeBoxes_subset_succ d _ b hb, hmem⟩

/-- The theorem on raising the depth at the id 20, found at depth 1 in the nw box, with a
service that names each segment after the corner of the box. -/
theorem ExploreArea_depth_monotone_witness :
    (20 : Int) ∈ (ExploreArea RangeOrder.insertion cornerService () 0 0 4 4 "running"
          ((1 : Nat) : Int)).map (fun x => x.Id) ∧
      (20 : Int) ∈ (ExploreArea RangeOrder.reversed cornerService () 0 0 4 4 "running"
          ((1 + 1 : Nat) : Int)).map (fun x => x.Id) :=
  ⟨cornerService_depth_one,
    ExploreArea_depth_monotone RangeOrder.insertion RangeOrder.reversed cornerService ()
      0 0 4 4 "running" 1 cornerService_deterministic 20 cornerService_depth_one⟩

/-- C13: for every elapsed time ≥ 0 and every distance > 0, `printLeader` computes
`pace = (elapsed / 60) / convertMeters(distance)`, `paceMinutes = ⌊pace⌋` and
`paceSeconds` = the fractional minute times 60 rounded to the nearest integer, halves up,
so that `paceMinutes * 60 + paceSeconds = ⌊pace * 60 + 1/2⌋` (exact arithmetic). -/
theorem printLeader_rounding {F : Type} [LinearOrderedField F] [FloorRing F]
    (metric : Bool) (ld : SegmentLeaderboardEntry) (distance : F)
    (he : 0 ≤ ld.ElapsedTime) (hd : 0 < distance) :
    leaderPace metric ld distance =
        ((ld.ElapsedTime : F) / 60) / convertMeters metric distance ∧
      (printLeader metric ld distance).paceMinutes = ⌊leaderPace metric ld distance⌋ ∧
      (printLeader metric ld distance).paceSeconds =
        ⌊(leaderPace metric ld distance - (⌊leaderPace metric ld distance⌋ : F)) * 60 +
          1 / 2⌋ ∧
      ((leaderPace metric ld distance - (⌊leaderPace metric ld distance⌋ : F)) * 60 - 1 / 2 <
          ((printLeader metric ld distance).paceSeconds : F) ∧
        ((printLeader metric ld distance).paceSeconds : F) ≤
          (leaderPace metric ld distance - (⌊leaderPace metric ld distance⌋ : F)) * 60 +
            1 / 2) ∧
      (printLeader metric ld distance).paceMinutes * 60 +
          (printLeader metric ld distance).paceSeconds =
        ⌊leaderPace metric ld distance * 60 + 1 / 2⌋ := by
  obtain ⟨hm, hs⟩ := printLeader_fields metric ld distance he hd
  refine ⟨?_, hm, hs, ⟨?_, ?_⟩, ?_⟩
  · simp only [leaderPace]
    norm_num
  · rw [hs]
    have := Int.lt_floor_add_one
      ((leaderPace metric ld distance - (⌊leaderPace metric ld distance⌋ : F)) * 60 + 1 / 2)
    linarith
  · rw [hs]
    exact Int.floor_le _
  · rw [hm, hs]
    have hre : (leaderPace metric ld distance - (⌊leaderPace metric ld distance⌋ : F)) * 60 +
        1 / 2 = (leaderPace metric ld distance * 60 + 1 / 2) -
          ((⌊leaderPace metric ld distance⌋ * 60 : Int) : F) := by
      push_cast
      ring
    rw [hre, Int.floor_sub_int]
    ring

/-- The rounding theorem at 1199 s over 4000 m in kilometres. -/
theorem printLeader_rounding_witness :
    (printLeader true ⟨1199⟩ (4000 : ℚ)).paceMinutes * 60 +
        (printLeader true ⟨1199⟩ (4000 : ℚ)).paceSeconds =
      ⌊leaderPace true ⟨1199⟩ (4000 : ℚ) * 60 + 1 / 2⌋ :=
  (printLeader_rounding true ⟨1199⟩ (4000 : ℚ) (by decide) (by norm_num)).2.2.2.2

/-- C19, at 1199 s over 4000 m in kilometres: the pace is 4.9958 min/km, the fractional
minute is 59.75 s, and `printLeader` prints 4 minutes and 60 seconds. -/
theorem printLeader_sixty_seconds :
    (printLeader true ⟨1199⟩ (4000 : ℚ)).paceMinutes = 4 ∧
      (printLeader true ⟨1199⟩ (4000 : ℚ)).paceSeconds = 60 ∧
      (0 : Int) ≤ 1199 ∧ (0 : ℚ) < 4000 := by
  have hp : leaderPace true ⟨1199⟩ (4000 : ℚ) = 1199 / 240 := by
    simp only [leaderPace, convertMeters, if_true]
    norm_num
  have hm : ⌊(1199 / 240 : ℚ)⌋ = 4 := by
    rw [Int.floor_eq_iff]
    norm_num
  have hs : ⌊((1199 / 240 : ℚ) - ((4 : Int) : ℚ)) * 60 + 1 / 2⌋ = 60 := by
    rw [Int.floor_eq_iff]
    norm_num
  obtain ⟨h1, h2⟩ := printLeader_fields true ⟨1199⟩ (4000 : ℚ) (by decide) (by norm_num)
  rw [hp, hm] at h1
  rw [hp, hm, hs] at h2
  exact ⟨h1, h2, by decide, by norm_num⟩

end Komwolf
